import Mathlib

unseal Rat.add Rat.mul Rat.sub Rat.inv Rat.ofScientific

/-!
Verification of the inbreeding-coefficient engine (WOSHIsb2021/InbreedingCoefficient).

The JavaScript sources are shallowly embedded below:
* `Animal` / `Graph`  — the pedigree network built by `BreedingPlanner` (one node per
  identifier; the planner guarantees at most one object per id, so object identity in the
  source coincides with id equality here).
* `getAncestors` — the breadth-first ancestor walk of `Animal.getAncestors` (the classic
  v1.3.0 variant seeds the visited set with the animal's own id, the v3.0.1 / v0.0.6 /
  v1.1.0 variants do not; the boolean parameter selects this).
* `findPathsToAncestorDFS` — the iterative stack DFS `_findPathsToAncestorDFS`, identical
  in every variant.
* `calculateInbreeding` / `calculateOffspringInbreeding` — the uncached relatedness engine
  (v0.0.6 strict-pairing and v3.0.1 no-cache editions), parameterised by the algorithm
  `Mode`: `full` accumulates every path pair (v0.0.6 / v3.0.1 / v1.1.0 sources), `classic`
  keeps the path-independence filter and pair normalisation of v1.3.0.
* `calculateInbreedingC` / `calculateOffspringInbreedingC` — the cached engine of v1.1.0
  (inbreeding cache, offspring cache, path cache, and the `currentlyCalculatingF` guard),
  with JavaScript `Map` insert-or-overwrite semantics.
* `loadPedigreeFromJson`, `calculateBreedingInbreedingClassic`,
  `calculateBreedingInbreeding6` — the record-level pipelines; exceptions thrown by the
  `Animal` constructor are modelled with `Except`.

Numbers: the JavaScript engine uses IEEE float64; all quantities here are modelled as
exact rationals (the spec's properties are about the exact Wright path-coefficient sums).
Recursion in the source terminates via the `currentlyCalculatingF` guard and the finite
graph; here every loop carries an explicit fuel argument that is large enough that the
fuel-exhaustion branch is never taken on the canonical entry points (see the fuel lemmas).
-/

/-- Whitespace test used by the string trim (JS `String.prototype.trim`). -/
def isWsChar (c : Char) : Bool := c == ' ' || c == '\t' || c == '\n' || c == '\r'

/-- JS `String.prototype.trim` on the ASCII whitespace relevant to the data set. -/
def trimStr (s : String) : String :=
  ⟨((s.data.dropWhile isWsChar).reverse.dropWhile isWsChar).reverse⟩

/-- ASCII lower-casing of one character (JS `toLowerCase` restricted to ASCII ids). -/
def asciiLower (c : Char) : Char :=
  if 'A' ≤ c && c ≤ 'Z' then Char.ofNat (c.toNat + 32) else c

/-- ASCII lower-casing of a string. -/
def lowerStr (s : String) : String := ⟨s.data.map asciiLower⟩

/-- A node of the pedigree network: `Animal` from the source, with parents kept as
identifier references (`parent1` = mother, `parent2` = father). -/
structure Animal where
  id : String
  parent1 : Option String
  parent2 : Option String
deriving DecidableEq, Repr

/-- The pedigree network: the `animalMap` of `BreedingPlanner`, in insertion order.
An identifier without a node behaves as an animal with no known parents (the planner
creates every referenced id with null parents before linking). -/
abbrev Graph := List Animal

/-- Parent references of an identifier (`getParent1`/`getParent2`). -/
def parentsOf (g : Graph) (a : String) : Option String × Option String :=
  match g.find? (fun n => n.id == a) with
  | some n => (n.parent1, n.parent2)
  | none => (none, none)

/-- The parents of `a` that exist, `parent1` first (the order the source pushes them). -/
def parentList (g : Graph) (a : String) : List String :=
  (parentsOf g a).1.toList ++ (parentsOf g a).2.toList

/-- All identifiers mentioned by the graph (node ids and parent references). -/
def idsAll (g : Graph) : List String :=
  g.flatMap (fun n => n.id :: (n.parent1.toList ++ n.parent2.toList))

/-- The mentioned identifiers without duplicates. -/
def dedupIds (g : Graph) : List String := (idsAll g).dedup

/-- Fuel bound for the breadth-first ancestor walk (each id is enqueued at most once). -/
def bfsFuel (g : Graph) : Nat := 2 * (dedupIds g).length + 4

/-- Enqueue a parent if it exists and its id is unvisited (`queue.push` + `visited.add`).
The pair is (queue, visited). -/
def pushParent (pOpt : Option String) (qv : List String × List String) :
    List String × List String :=
  match pOpt with
  | none => qv
  | some p => if p ∈ qv.2 then qv else (qv.1 ++ [p], qv.2 ++ [p])

/-- The while-loop of `Animal.getAncestors`: dequeue, record the ancestor, enqueue its
unvisited parents.  `acc` is the ancestor set in insertion order. -/
def bfsLoop (g : Graph) : Nat → List String → List String → List String → List String
  | 0, _, _, acc => acc
  | _ + 1, [], _, acc => acc
  | n + 1, cur :: rest, visited, acc =>
      let acc' := if cur ∈ acc then acc else acc ++ [cur]
      let s1 := pushParent (parentsOf g cur).1 (rest, visited)
      let s2 := pushParent (parentsOf g cur).2 s1
      bfsLoop g n s2.1 s2.2 acc'

/-- `Animal.getAncestors`: all ancestors of `a` (excluding `a` unless the data is
cyclic), by BFS over the parent links.  `selfVisited` distinguishes the v1.3.0 variant
(which seeds the visited set with `a`'s own id) from the later variants (which do not). -/
def getAncestors (selfVisited : Bool) (g : Graph) (a : String) : List String :=
  let roots := parentList g a
  let visited0 := if selfVisited then a :: roots else roots
  bfsLoop g (bfsFuel g) roots visited0 []

/-- The ancestor set together with the individual itself: `ancestors.add(parent)` in
`calculateOffspringInbreeding` (a JS `Set.add` keeps the first insertion position). -/
def ancClosure (selfVisited : Bool) (g : Graph) (a : String) : List String :=
  let l := getAncestors selfVisited g a
  if a ∈ l then l else l ++ [a]

/-- Carrier of every identifier a path from `s` can visit. -/
def dfsCarrier (g : Graph) (s : String) : List String := (s :: idsAll g).dedup

/-- Fuel bound for the path DFS (the stack shrinks in the `3 ^ remaining` potential). -/
def dfsFuel (g : Graph) (s : String) : Nat := 3 ^ ((dfsCarrier g s).length + 1)

/-- `_processParentForDFS`: a parent equal to the target completes a path; an unvisited
parent is scheduled.  The state is (found paths, pending pushes in push order). -/
def processParentForDFS (tgt : String) (path : List String) (pOpt : Option String)
    (st : List (List String) × List (String × List String)) :
    List (List String) × List (String × List String) :=
  match pOpt with
  | none => st
  | some p =>
      if p = tgt then (st.1 ++ [path ++ [p]], st.2)
      else if p ∈ path then st
      else (st.1, st.2 ++ [(p, path ++ [p])])

/-- The while-loop of `_findPathsToAncestorDFS` (the JS array stack pops the most recent
push, so the head of the list is the stack top and fresh pushes are reversed on top). -/
def findPathsLoop (g : Graph) (tgt : String) :
    Nat → List (String × List String) → List (List String) → List (List String)
  | 0, _, acc => acc
  | _ + 1, [], acc => acc
  | n + 1, e :: rest, acc =>
      let s1 := processParentForDFS tgt e.2 (parentsOf g e.1).1 (acc, [])
      let s2 := processParentForDFS tgt e.2 (parentsOf g e.1).2 s1
      findPathsLoop g tgt n (s2.2.reverse ++ rest) s2.1

/-- `_findPathsToAncestorDFS`: every path from `start` to the target along parent links
found by the iterative DFS; a trivial one-node path when they coincide. -/
def findPathsToAncestorDFS (g : Graph) (s tgt : String) : List (List String) :=
  if s = tgt then [[s]] else findPathsLoop g tgt (dfsFuel g s) [(s, [s])] []

/-- The two path-accumulation algorithms of the engine: `full` (v0.0.6, v3.0.1, v1.1.0)
sums every path pair; `classic` (v1.3.0) keeps only independent path pairs and
normalises the argument pair. -/
inductive Mode
  | classic
  | full
deriving DecidableEq, Repr

/-- The v1.3.0 ancestor walk seeds the visited set with the animal itself. -/
def modeSelfVisited : Mode → Bool
  | .classic => true
  | .full => false

/-- `_arePathsIndependent` from v1.3.0: the interiors of the two paths must not share a
node (with the source's early `true` when the first interior is empty). -/
def arePathsIndependent (path1 path2 : List String) : Bool :=
  let mid1 := (path1.drop 1).dropLast
  if mid1 = [] then true
  else ((path2.drop 1).dropLast).all (fun x => !(mid1.contains x))

/-- Whether a path pair contributes in the given mode. -/
def pairAllowed : Mode → List String → List String → Bool
  | .classic, p1, p2 => arePathsIndependent p1 p2
  | .full, _, _ => true

/-- Lexicographic comparison of character lists by code point (the model of JS
`localeCompare` on the repository's ASCII identifiers). -/
def charListLt : List Char → List Char → Bool
  | [], [] => false
  | [], _ :: _ => true
  | _ :: _, [] => false
  | c1 :: r1, c2 :: r2 =>
      if c1 < c2 then true
      else if c2 < c1 then false
      else charListLt r1 r2

/-- Lexicographic string comparison by code point. -/
def strLt (a b : String) : Bool := charListLt a.data b.data

/-- v1.3.0 normalises the pair by identifier order before computing (`localeCompare`,
modelled with the lexicographic code-point order). -/
def sortPair : Mode → String → String → String × String
  | .classic, p, q => if strLt q p then (q, p) else (p, q)
  | .full, p, q => (p, q)

/-- The common ancestors of the pair: the intersection of the two ancestor closures, in
the iteration order of the first closure (`for (const ancestor of ancestors1)`). -/
def commonAncestors (mode : Mode) (g : Graph) (x y : String) : List String :=
  let a1 := ancClosure (modeSelfVisited mode) g x
  let a2 := ancClosure (modeSelfVisited mode) g y
  a1.filter (fun c => c ∈ a2)

/-- The inner double loop over path pairs: Wright's term
`0.5 ^ (n1 + n2 + 1) * (1 + Fa)` added for each allowed pair. -/
def pathPairSum (mode : Mode) (fa : ℚ) (paths1 paths2 : List (List String)) (acc : ℚ) :
    ℚ :=
  paths1.foldl (fun acc1 p1 =>
    paths2.foldl (fun acc2 p2 =>
      if pairAllowed mode p1 p2 then
        acc2 + (1 / 2 : ℚ) ^ (p1.length - 1 + (p2.length - 1) + 1) * (1 + fa)
      else acc2) acc1) acc

/-- The body of `calculateOffspringInbreeding`, abstracted over the recursive
inbreeding computation `F` for the common ancestors. -/
def offspringSum (mode : Mode) (g : Graph) (F : String → ℚ) (p q : String) : ℚ :=
  let xy := sortPair mode p q
  (commonAncestors mode g xy.1 xy.2).foldl (fun acc c =>
    pathPairSum mode (F c) (findPathsToAncestorDFS g xy.1 c)
      (findPathsToAncestorDFS g xy.2 c) acc) 0

/-- `calculateInbreeding` of the uncached engine: the guard set `visiting` is the
source's `currentlyCalculatingF`; an id already being computed yields `0`, a founder or
half-known individual yields `0`, otherwise the offspring coefficient of the parents is
computed with the id added to the guard.  The fuel dominates the recursion depth, which
the source bounds by the number of distinct identifiers. -/
def calculateInbreeding (mode : Mode) (g : Graph) : Nat → List String → String → ℚ
  | 0, _, _ => 0
  | n + 1, visiting, a =>
      if a ∈ visiting then 0
      else
        match parentsOf g a with
        | (some p1, some p2) =>
            offspringSum mode g (calculateInbreeding mode g n (a :: visiting)) p1 p2
        | _ => 0

/-- Canonical fuel: one more than the number of distinct identifiers (each recursive
`calculateInbreeding` call adds a fresh id to the guard, so the source never recurses
deeper than this). -/
def engineFuel (g : Graph) : Nat := (dedupIds g).length + 1

/-- `calculateOffspringInbreeding` of the uncached engine at the canonical fuel. -/
def calculateOffspringInbreeding (mode : Mode) (g : Graph) (p q : String) : ℚ :=
  offspringSum mode g (calculateInbreeding mode g (engineFuel g) []) p q

/-- An individual's own coefficient queried from a fresh engine. -/
def inbreedingOf (mode : Mode) (g : Graph) (a : String) : ℚ :=
  calculateInbreeding mode g (engineFuel g) [] a

/-- State of the cached engine of v1.1.0: the three caches and the recursion guard. -/
structure CState where
  inbCache : List (String × ℚ)
  offCache : List (String × ℚ)
  pathCache : List (String × List (List String))
  visiting : List String
deriving Repr

/-- A fresh calculator (`new RelatednessCalculator()`). -/
def emptyCState : CState := ⟨[], [], [], []⟩

/-- JS `Map.set`: overwrite in place if the key exists, else append. -/
def mapSet {α : Type} (m : List (String × α)) (k : String) (v : α) : List (String × α) :=
  match m with
  | [] => [(k, v)]
  | (k', v') :: rest => if k' = k then (k, v) :: rest else (k', v') :: mapSet rest k v

/-- JS `Map.get`. -/
def mapGet {α : Type} (m : List (String × α)) (k : String) : Option α :=
  match m with
  | [] => none
  | (k', v') :: rest => if k' = k then some v' else mapGet rest k

/-- Offspring cache key (the source concatenates the normalised ids with a comma). -/
def offKey (x y : String) : String := x ++ "," ++ y

/-- Path cache key (`start.getId() + "->" + target.getId()`). -/
def pathKey (s t : String) : String := s ++ "->" ++ t

/-- `_findPathsToAncestorWithCache`. -/
def getPathsCached (g : Graph) (st : CState) (s t : String) :
    List (List String) × CState :=
  match mapGet st.pathCache (pathKey s t) with
  | some ps => (ps, st)
  | none =>
      let ps := findPathsToAncestorDFS g s t
      (ps, { st with pathCache := mapSet st.pathCache (pathKey s t) ps })

/-- Body of the cached `calculateOffspringInbreeding`, abstracted over the recursive
state-threading inbreeding computation `FC`: normalise the pair, consult the offspring
cache, otherwise fold the common ancestors (own coefficient, then both cached path sets,
then the double loop) and store the total. -/
def offspringFoldC (mode : Mode) (g : Graph) (FC : CState → String → ℚ × CState)
    (st : CState) (p q : String) : ℚ × CState :=
  let xy := sortPair mode p q
  let key := offKey xy.1 xy.2
  match mapGet st.offCache key with
  | some v => (v, st)
  | none =>
      let res := (commonAncestors mode g xy.1 xy.2).foldl
        (fun (acc : ℚ × CState) c =>
          let fa := FC acc.2 c
          let ps1 := getPathsCached g fa.2 xy.1 c
          let ps2 := getPathsCached g ps1.2 xy.2 c
          (pathPairSum mode fa.1 ps1.1 ps2.1 acc.1, ps2.2)) (0, st)
      (res.1, { res.2 with offCache := mapSet res.2.offCache key res.1 })

/-- `calculateInbreeding` of the cached engine of v1.1.0: inbreeding cache first, then
the recursion guard, then the parents' offspring coefficient; the result is cached and
the guard entry removed before returning. -/
def calculateInbreedingC (mode : Mode) (g : Graph) : Nat → CState → String → ℚ × CState
  | 0, st, _ => (0, st)
  | n + 1, st, a =>
      match mapGet st.inbCache a with
      | some v => (v, st)
      | none =>
          if a ∈ st.visiting then (0, st)
          else
            let st1 := { st with visiting := a :: st.visiting }
            match parentsOf g a with
            | (some p1, some p2) =>
                let r := offspringFoldC mode g (calculateInbreedingC mode g n) st1 p1 p2
                (r.1, { r.2 with inbCache := mapSet r.2.inbCache a r.1,
                                 visiting := r.2.visiting.erase a })
            | _ =>
                (0, { st1 with inbCache := mapSet st1.inbCache a 0,
                               visiting := st1.visiting.erase a })

/-- `calculateOffspringInbreeding` of the cached engine at the canonical fuel. -/
def calculateOffspringInbreedingC (mode : Mode) (g : Graph) (st : CState) (p q : String) :
    ℚ × CState :=
  offspringFoldC mode g (calculateInbreedingC mode g (engineFuel g)) st p q

/-- A flattened pedigree record: the sixteen identifier slots the loader reads
(`sId`/`sid` self, `fId` sire, `mId` dam, grandparents, great-grandparents).  `none`
models an absent / `null` / `undefined` field; `some ""` an empty string. -/
structure PedRecord where
  sId : Option String := none
  sid : Option String := none
  fId : Option String := none
  mId : Option String := none
  ffId : Option String := none
  fmId : Option String := none
  mfId : Option String := none
  mmId : Option String := none
  fffId : Option String := none
  ffmId : Option String := none
  fmfId : Option String := none
  fmmId : Option String := none
  mffId : Option String := none
  mfmId : Option String := none
  mmfId : Option String := none
  mmmId : Option String := none
deriving DecidableEq, Repr

/-- JS truthiness of an identifier field (a string is truthy iff non-empty). -/
def jsTruthy : Option String → Bool
  | none => false
  | some s => s != ""

/-- JS `a || b` on identifier fields. -/
def jsOr (a b : Option String) : Option String := if jsTruthy a then a else b

/-- A field used as a computed object key: JS stringifies `undefined`/absent values to
the literal key `"undefined"` (an actual `null` value likewise becomes `"null"`; both
behave the same way downstream, so `none` stands for either). -/
def jsKey : Option String → String
  | none => "undefined"
  | some s => s

/-- Error raised by the `Animal` constructor on an invalid identifier. -/
def invalidIdMsg : String := "invalid animal id"

/-- `new Animal(id)`: throws when the id is empty after trimming or is a literal
missing-value token; otherwise a parentless node with the trimmed id. -/
def animalNew (id : String) : Except String Animal :=
  if trimStr id = "" || lowerStr id = "undefined" || lowerStr id = "null" then
    Except.error invalidIdMsg
  else Except.ok ⟨trimStr id, none, none⟩

/-- `BreedingPlanner.getOrCreateAnimal`: `null`/`undefined`/blank ids give no animal;
otherwise return the existing node for the trimmed id or construct one (which throws on
the literal tokens `"null"` / `"undefined"` — the constructor's check, not repeated by
the planner's own guard). -/
def getOrCreateAnimal (m : Graph) (idOpt : Option String) :
    Except String (Option String × Graph) :=
  match idOpt with
  | none => Except.ok (none, m)
  | some s =>
      if trimStr s = "" then Except.ok (none, m)
      else
        let t := trimStr s
        match m.find? (fun n => n.id == t) with
        | some _ => Except.ok (some t, m)
        | none =>
            match animalNew t with
            | Except.error e => Except.error e
            | Except.ok a => Except.ok (some t, m ++ [a])

/-- The sixteen identifier slots in the order the loader's first pass scans them. -/
def recFieldsOrder (r : PedRecord) : List (Option String) :=
  [r.sId, r.sid, r.mId, r.fId, r.mmId, r.mfId, r.fmId, r.ffId,
   r.mmmId, r.mmfId, r.mfmId, r.mffId, r.fmmId, r.fmfId, r.ffmId, r.fffId]

/-- First pass of `loadPedigreeFromJson`: collect every truthy identifier whose trim is
non-empty (a JS `Set` in insertion order). -/
def collectIds (records : List PedRecord) : List String :=
  records.foldl (fun acc r =>
    (recFieldsOrder r).foldl (fun acc f =>
      match f with
      | none => acc
      | some s =>
          if s = "" then acc
          else if trimStr s = "" then acc
          else if trimStr s ∈ acc then acc
          else acc ++ [trimStr s]) acc) []

/-- Create a node for every collected id (`for (const id of allIds) getOrCreateAnimal`). -/
def createAll (m : Graph) (ids : List String) : Except String Graph :=
  match ids with
  | [] => Except.ok m
  | id :: rest => do
      let r ← getOrCreateAnimal m (some id)
      createAll r.2 rest

/-- The `relationships` object literal of a record: JS computed keys stringify missing
fields, duplicate keys collapse onto the first position with the later value. -/
def relationshipsOf (r : PedRecord) : List (String × Option String × Option String) :=
  let l0 := mapSet [] (jsKey (jsOr r.sId r.sid)) (r.mId, r.fId)
  let l1 := mapSet l0 (jsKey r.fId) (r.fmId, r.ffId)
  let l2 := mapSet l1 (jsKey r.mId) (r.mmId, r.mfId)
  let l3 := mapSet l2 (jsKey r.ffId) (r.ffmId, r.fffId)
  let l4 := mapSet l3 (jsKey r.fmId) (r.fmmId, r.fmfId)
  let l5 := mapSet l4 (jsKey r.mfId) (r.mfmId, r.mffId)
  mapSet l5 (jsKey r.mmId) (r.mmmId, r.mmfId)

/-- Set the dam reference of a node (`setParent1`). -/
def setParent1 (m : Graph) (id : String) (p : Option String) : Graph :=
  m.map (fun n => if n.id = id then { n with parent1 := p } else n)

/-- Set the sire reference of a node (`setParent2`). -/
def setParent2 (m : Graph) (id : String) (p : Option String) : Graph :=
  m.map (fun n => if n.id = id then { n with parent2 := p } else n)

/-- Handle one `childId in relationships` entry: resolve child, mother and father (any
of which may throw on a literal token), then attach parents — overwriting when `ow` is
true (v0.0.6 / v3.0.1) and only filling empty slots otherwise (v1.3.0 / v1.1.0). -/
def processRelationship (ow : Bool) (m : Graph) (childKey : String)
    (mo fa : Option String) : Except String Graph := do
  let c ← getOrCreateAnimal m (some childKey)
  match c.1 with
  | none => Except.ok c.2
  | some cid => do
      let mres ← getOrCreateAnimal c.2 mo
      let fres ← getOrCreateAnimal mres.2 fa
      let m3 := fres.2
      let m4 := match mres.1 with
        | some mid =>
            if ow then setParent1 m3 cid (some mid)
            else if (parentsOf m3 cid).1 = none then setParent1 m3 cid (some mid)
            else m3
        | none => m3
      let m5 := match fres.1 with
        | some fid =>
            if ow then setParent2 m4 cid (some fid)
            else if (parentsOf m4 cid).2 = none then setParent2 m4 cid (some fid)
            else m4
        | none => m4
      Except.ok m5

/-- `loadPedigreeFromJson`: first pass creates every mentioned animal, second pass walks
each record's `relationships` object and attaches parents. -/
def loadPedigreeFromJson (ow : Bool) (m : Graph) (records : List PedRecord) :
    Except String Graph := do
  let m1 ← createAll m (collectIds records)
  records.foldlM (fun acc r =>
    (relationshipsOf r).foldlM
      (fun mm kv => processRelationship ow mm kv.1 kv.2.1 kv.2.2) acc) m1

/-- JS `parseFloat(x.toFixed(8))`: rounding to eight decimal places, modelled exactly on
rationals (round half up; the float64 re-parse is the identity on these values). -/
def round8 (q : ℚ) : ℚ := ((round (q * 100000000) : ℤ) : ℚ) / 100000000

/-- One result tuple `{bullId, cowId, inbreedingCoefficient}`. -/
structure PairResult where
  bullId : String
  cowId : String
  inbreedingCoefficient : ℚ
deriving DecidableEq, Repr

/-- The top-level shape validation shared by the entry points: the cow record must have
a truthy `sId` or `sid` and the partner array must be non-empty. -/
def topShapeValid (cow : PedRecord) (bulls : List PedRecord) : Bool :=
  jsTruthy (jsOr cow.sId cow.sid) && !bulls.isEmpty

/-- The per-partner loop of the classic (v1.3.0) batch pipeline: one shared planner and
one shared cached classic calculator across all partners; partners with a falsy id or an
unresolvable animal are skipped. -/
def classicLoop (cowId : Option String) :
    List PedRecord → Graph → CState → Except String (List PairResult)
  | [], _, _ => Except.ok []
  | b :: rest, g, st =>
      let bid := jsOr b.sId b.sid
      if !(jsTruthy bid) then classicLoop cowId rest g st
      else do
        let cres ← getOrCreateAnimal g cowId
        let bres ← getOrCreateAnimal cres.2 bid
        match cres.1, bres.1 with
        | some cid, some bidT => do
            let f := calculateOffspringInbreedingC .classic bres.2 st bidT cid
            let rs ← classicLoop cowId rest bres.2 f.2
            Except.ok (⟨bidT, cid, round8 f.1⟩ :: rs)
        | _, _ => classicLoop cowId rest bres.2 st

/-- `calculateBreedingInbreeding` of the classic v1.3.0 module: shape validation, one
batch load of all records (first-wins attachment), then the shared-calculator loop.
Exceptions escaping `loadPedigreeFromJson` or `getOrCreateAnimal` surface as `.error`. -/
def calculateBreedingInbreedingClassic (cow : PedRecord) (bulls : List PedRecord) :
    Except String (List PairResult) :=
  if !(topShapeValid cow bulls) then Except.ok []
  else do
    let g ← loadPedigreeFromJson false [] (cow :: bulls)
    classicLoop (jsOr cow.sId cow.sid) bulls g emptyCState

/-- One strict pairing of the v0.0.6 module: a fresh planner loaded with exactly the cow
record and this partner record (overwrite attachment) and a fresh uncached
full-accumulation calculator; `none` when the partner is skipped. -/
def strictPairOutcome (cow b : PedRecord) : Except String (Option PairResult) :=
  if !(jsTruthy (jsOr b.sId b.sid)) then Except.ok none
  else do
    let g ← loadPedigreeFromJson true [] [cow, b]
    let cres ← getOrCreateAnimal g (jsOr cow.sId cow.sid)
    let bres ← getOrCreateAnimal cres.2 (jsOr b.sId b.sid)
    match cres.1, bres.1 with
    | some cid, some bidT =>
        Except.ok (some ⟨bidT, cid,
          round8 (calculateOffspringInbreeding .full bres.2 bidT cid)⟩)
    | _, _ => Except.ok none

/-- The per-partner loop of the strict-pairing pipeline. -/
def strictLoop (cow : PedRecord) : List PedRecord → Except String (List PairResult)
  | [] => Except.ok []
  | b :: rest => do
      let o ← strictPairOutcome cow b
      let rs ← strictLoop cow rest
      match o with
      | none => Except.ok rs
      | some r => Except.ok (r :: rs)

/-- `calculateBreedingInbreeding` of the strict-pairing v0.0.6 module. -/
def calculateBreedingInbreeding6 (cow : PedRecord) (bulls : List PedRecord) :
    Except String (List PairResult) :=
  if !(topShapeValid cow bulls) then Except.ok []
  else strictLoop cow bulls

/-- An edge of the pedigree graph from a child to one of its parents. -/
def parentEdge (g : Graph) (a b : String) : Prop :=
  (parentsOf g a).1 = some b ∨ (parentsOf g a).2 = some b

instance (g : Graph) (a b : String) : Decidable (parentEdge g a b) :=
  inferInstanceAs (Decidable ((parentsOf g a).1 = some b ∨ (parentsOf g a).2 = some b))

instance instChainParentEdgeDec (g : Graph) :
    ∀ l : List String, Decidable (List.Chain' (parentEdge g) l)
  | [] => isTrue List.chain'_nil
  | [a] => isTrue (List.chain'_singleton a)
  | a :: b :: l =>
      have : Decidable (List.Chain' (parentEdge g) (b :: l)) :=
        instChainParentEdgeDec g (b :: l)
      decidable_of_iff (parentEdge g a b ∧ List.Chain' (parentEdge g) (b :: l))
        List.chain'_cons.symm

/-- Reachability along parent edges (reflexive-transitive closure). -/
def reachableFrom (g : Graph) : String → String → Prop :=
  Relation.ReflTransGen (parentEdge g)

/-- `y` is an ancestor of `x` proper: reachable from one of `x`'s parents. -/
def ancestorRel (g : Graph) (x y : String) : Prop :=
  ∃ p, p ∈ parentList g x ∧ reachableFrom g p y

/-- A simple path from `s` to `t` along parent edges: non-empty, starts at `s`, ends at
`t`, consecutive elements are parent edges, and no node repeats. -/
def IsSimplePathFromTo (g : Graph) (s t : String) (p : List String) : Prop :=
  p.head? = some s ∧ p.getLast? = some t ∧ List.Chain' (parentEdge g) p ∧ p.Nodup

instance (g : Graph) (s t : String) (p : List String) :
    Decidable (IsSimplePathFromTo g s t p) :=
  inferInstanceAs (Decidable (p.head? = some s ∧ p.getLast? = some t ∧
    List.Chain' (parentEdge g) p ∧ p.Nodup))

/-- A grading witnessing acyclicity: every parent ranks strictly below its child.
Quantifying over the mentioned identifiers is enough because every other identifier has
an empty parent list. -/
def Graded (g : Graph) (rank : String → Nat) : Prop :=
  ∀ a ∈ dedupIds g, ∀ p ∈ parentList g a, rank p < rank a

/-- The pedigree graph is acyclic (admits a grading). -/
def AcyclicGraph (g : Graph) : Prop := ∃ rank, Graded g rank

/-- An identifier that cannot collide inside the string cache keys of the cached engine
(the offspring cache joins ids with `','`, the path cache with `"->"`). -/
def keySafeId (s : String) : Prop := ',' ∉ s.data ∧ '-' ∉ s.data

instance (s : String) : Decidable (keySafeId s) :=
  inferInstanceAs (Decidable (',' ∉ s.data ∧ '-' ∉ s.data))

/-- Every identifier mentioned by the graph is key-safe. -/
def KeySafeGraph (g : Graph) : Prop := ∀ id ∈ idsAll g, keySafeId id

/-- One Wright path-pair term: `0.5 ^ (n1 + n2 + 1) * (1 + Fa)` when the pair is
allowed in the given mode, `0` otherwise. -/
def pairTerm (mode : Mode) (fa : ℚ) (p1 p2 : List String) : ℚ :=
  if pairAllowed mode p1 p2 then
    (1 / 2 : ℚ) ^ (p1.length - 1 + (p2.length - 1) + 1) * (1 + fa)
  else 0

/-- Total contribution of one common ancestor `c` to the offspring coefficient of the
(already normalised) pair `x, y`. -/
def ancestorContribution (mode : Mode) (g : Graph) (F : String → ℚ) (x y c : String) :
    ℚ :=
  ((findPathsToAncestorDFS g x c).map
    (fun p1 => ((findPathsToAncestorDFS g y c).map (pairTerm mode (F c) p1)).sum)).sum

/-- Concrete pedigree refuting the mode-coincidence half of the spec: `p` and `q` are
half-siblings through `x`, and `x`'s only parent is the founder `a`; no common ancestor
is inbred, yet the paths `p-x-a` and `q-x-a` share the intermediate node `x`. -/
def cexModesGraph : Graph :=
  [⟨"p", some "x", none⟩, ⟨"q", some "x", none⟩, ⟨"x", some "a", none⟩]

/-- Concrete cyclic pedigree (an animal that is its own grandparent, expressible in one
flattened record) on which the cached and uncached engines disagree. -/
def cexCacheGraph : Graph :=
  [⟨"g", some "c", some "c"⟩, ⟨"c", some "g", some "g"⟩]

/-- Full siblings `a`, `b` of the founder parents `s`, `d`. -/
def sibGraph : Graph := [⟨"a", some "s", some "d"⟩, ⟨"b", some "s", some "d"⟩]

/-- A grading of `sibGraph`. -/
def sibRank (id : String) : Nat := if id = "a" ∨ id = "b" then 1 else 0

/-- Two unrelated individuals with one known parent each. -/
def disjointGraph : Graph := [⟨"a", some "s", none⟩, ⟨"b", some "t", none⟩]

/-- The self-bred individual `y = offspring(x, x)`. -/
def selfGraph : Graph := [⟨"y", some "x", some "x"⟩]

/-- A record whose sire slot holds the literal missing-value token `"null"` (every other
ancestor slot holds the empty string, as in the repository's own test data). -/
def c1cow : PedRecord where
  sid := some "A"
  fId := some "null"
  mId := some ""
  ffId := some ""
  fmId := some ""
  mfId := some ""
  mmId := some ""
  fffId := some ""
  ffmId := some ""
  fmfId := some ""
  fmmId := some ""
  mffId := some ""
  mfmId := some ""
  mmfId := some ""
  mmmId := some ""

/-- A plain valid partner record with no known ancestors. -/
def c1bull : PedRecord where
  sId := some "B"
  fId := some ""
  mId := some ""
  ffId := some ""
  fmId := some ""
  mfId := some ""
  mmId := some ""
  fffId := some ""
  ffmId := some ""
  fmfId := some ""
  fmmId := some ""
  mffId := some ""
  mfmId := some ""
  mmfId := some ""
  mmmId := some ""

/-- Subject record of the C3 counterexample: the individual `y` bred from the single
founder `x` used as both dam and sire — an acyclic pedigree. -/
def c3cow : PedRecord where
  sid := some "y"
  fId := some "x"
  mId := some "x"
  ffId := some ""
  fmId := some ""
  mfId := some ""
  mmId := some ""
  fffId := some ""
  ffmId := some ""
  fmfId := some ""
  fmmId := some ""
  mffId := some ""
  mfmId := some ""
  mmfId := some ""
  mmmId := some ""

/-- Partner record of the C3 counterexample: the same individual `y`. -/
def c3bull : PedRecord where
  sId := some "y"
  fId := some "x"
  mId := some "x"
  ffId := some ""
  fmId := some ""
  mfId := some ""
  mmId := some ""
  fffId := some ""
  ffmId := some ""
  fmfId := some ""
  fmmId := some ""
  mffId := some ""
  mfmId := some ""
  mmfId := some ""
  mmmId := some ""

/-- Subject record used for the C9 witness (the repository's `test.js` cow). -/
def c9cow : PedRecord where
  sid := some "C2"
  fId := some "B1"
  mId := some "B2"
  ffId := some "P1"
  fmId := some "P2"
  mfId := some "P1"
  mmId := some "P2"
  fffId := some ""
  ffmId := some "M"
  fmfId := some ""
  fmmId := some "M"
  mffId := some ""
  mfmId := some "M"
  mmfId := some ""
  mmmId := some "M"

/-- Partner record used for the C9 witness (the repository's `test.js` bull). -/
def c9bull : PedRecord where
  sId := some "C1"
  fId := some "B1"
  mId := some ""
  ffId := some "P1"
  fmId := some "P2"
  mfId := some ""
  mmId := some ""
  fffId := some ""
  ffmId := some "M"
  fmfId := some ""
  fmmId := some ""
  mffId := some ""
  mfmId := some ""
  mmfId := some ""
  mmmId := some ""

/-- Number of mentioned identifiers not yet visited — the BFS termination potential. -/
def unvisitedCount (g : Graph) (visited : List String) : Nat :=
  ((dedupIds g).filter (fun i => i ∉ visited)).length

/-- One input record describing the mutually-circular pair `g`, `c`: each is both
parents of the other (the slot keys collapse in the JS object literal so that the final
relationships are exactly `g -> (c, c)` and `c -> (g, g)`). -/
def c4rec : PedRecord where
  sid := some "g"
  fId := some "c"
  mId := some "c"
  ffId := some "g"
  fmId := some "g"
  mfId := some "g"
  mmId := some "g"
  mmmId := some "c"
  mmfId := some "c"

/-- The number of proper ancestors of `a` among the mentioned identifiers: the
recursion measure the acyclicity grading induces on the engine. -/
def rankStar (g : Graph) (a : String) : Nat :=
  ((dedupIds g).filter (fun x => x ∈ ancClosure false g a ∧ ¬x = a)).length

/-- Soundness of a cached-engine state for the full-accumulation engine: every
inbreeding-cache entry holds the canonical uncached coefficient of its id, and every
offspring / path cache entry is keyed by a key-safe pair and holds the corresponding
uncached value. -/
def SoundState (g : Graph) (st : CState) : Prop :=
  (∀ k v, mapGet st.inbCache k = some v → v = inbreedingOf .full g k) ∧
    (∀ k v, mapGet st.offCache k = some v →
      ∃ x y, keySafeId x ∧ keySafeId y ∧ k = offKey x y ∧
        v = offspringSum .full g (inbreedingOf .full g) x y) ∧
    (∀ k ps, mapGet st.pathCache k = some ps →
      ∃ x y, keySafeId x ∧ keySafeId y ∧ k = pathKey x y ∧
        ps = findPathsToAncestorDFS g x y)

/-- A well-formed DFS stack entry for the search from `s` towards `t`: the recorded
path runs from `s` to the entry's animal along parent edges, repeats no node, avoids
the target, and stays inside the carrier of reachable identifiers. -/
def EntryOk (g : Graph) (s t : String) (e : String × List String) : Prop :=
  e.2.head? = some s ∧ e.2.getLast? = some e.1 ∧ List.Chain' (parentEdge g) e.2 ∧
    e.2.Nodup ∧ t ∉ e.2 ∧ ∀ x ∈ e.2, x ∈ dfsCarrier g s

/-- `P` is a simple path from `s` to `t` that properly extends the partial path `pa`. -/
def ExtendsTo (g : Graph) (s t : String) (pa P : List String) : Prop :=
  IsSimplePathFromTo g s t P ∧ ∃ rext, rext ≠ [] ∧ P = pa ++ rext

/-- Termination potential of a DFS stack. -/
def stackCost (g : Graph) (s : String) (stack : List (String × List String)) : Nat :=
  (stack.map (fun e => 3 ^ ((dfsCarrier g s).length + 1 - e.2.length))).sum

/- ------------------------------------------------------------------ -/
/- Theorems.                                                           -/
/- ------------------------------------------------------------------ -/

/-- Generic accumulator-shifting fold lemma. -/
theorem foldl_add_shift {α : Type} (step : ℚ → α → ℚ) (t : α → ℚ)
    (h : ∀ q c, step q c = q + t c) (l : List α) (q : ℚ) :
    l.foldl step q = q + (l.map t).sum := by
  induction l generalizing q with
  | nil => simp
  | cons x xs ih => rw [List.foldl_cons, h, List.map_cons, List.sum_cons, ih, add_assoc]

/-- The inner double loop is the sum of the path-pair terms. -/
theorem pathPairSum_eq (mode : Mode) (fa : ℚ) (ps1 ps2 : List (List String)) (acc : ℚ) :
    pathPairSum mode fa ps1 ps2 acc
      = acc + (ps1.map (fun p1 => (ps2.map (pairTerm mode fa p1)).sum)).sum := by
  unfold pathPairSum
  apply foldl_add_shift
  intro q p1
  apply foldl_add_shift
  intro q' p2
  unfold pairTerm
  by_cases h : pairAllowed mode p1 p2 <;> simp [h]

/-- The offspring body is the sum of the common-ancestor contributions. -/
theorem offspringSum_eq (mode : Mode) (g : Graph) (F : String → ℚ) (p q : String) :
    offspringSum mode g F p q
      = ((commonAncestors mode g (sortPair mode p q).1 (sortPair mode p q).2).map
          (ancestorContribution mode g F (sortPair mode p q).1 (sortPair mode p q).2)).sum := by
  unfold offspringSum
  rw [foldl_add_shift _ (ancestorContribution mode g F
        (sortPair mode p q).1 (sortPair mode p q).2), zero_add]
  intro acc c
  rw [pathPairSum_eq]
  rfl

/-- A path-pair term is non-negative whenever the ancestor coefficient is. -/
theorem pairTerm_nonneg (mode : Mode) (fa : ℚ) (hfa : 0 ≤ fa) (p1 p2 : List String) :
    0 ≤ pairTerm mode fa p1 p2 := by
  unfold pairTerm
  split
  · positivity
  · exact le_refl 0

/-- A common-ancestor contribution is non-negative whenever the coefficient is. -/
theorem ancestorContribution_nonneg (mode : Mode) (g : Graph) (F : String → ℚ)
    (x y c : String) (h : 0 ≤ F c) : 0 ≤ ancestorContribution mode g F x y c := by
  unfold ancestorContribution
  apply List.sum_nonneg
  intro v hv
  simp only [List.mem_map] at hv
  obtain ⟨p1, _, rfl⟩ := hv
  apply List.sum_nonneg
  intro w hw
  simp only [List.mem_map] at hw
  obtain ⟨p2, _, rfl⟩ := hw
  exact pairTerm_nonneg mode (F c) h p1 p2

/-- The offspring body is non-negative whenever all coefficients are. -/
theorem offspringSum_nonneg (mode : Mode) (g : Graph) (F : String → ℚ)
    (hF : ∀ c, 0 ≤ F c) (p q : String) : 0 ≤ offspringSum mode g F p q := by
  rw [offspringSum_eq]
  apply List.sum_nonneg
  intro v hv
  simp only [List.mem_map] at hv
  obtain ⟨c, _, rfl⟩ := hv
  exact ancestorContribution_nonneg mode g F _ _ c (hF c)

/-- The engine's inbreeding coefficient is non-negative at every fuel and guard set. -/
theorem calculateInbreeding_nonneg (mode : Mode) (g : Graph) :
    ∀ (fuel : Nat) (V : List String) (a : String),
      0 ≤ calculateInbreeding mode g fuel V a := by
  intro fuel
  induction fuel with
  | zero => intro V a; simp [calculateInbreeding]
  | succ n ih =>
      intro V a
      unfold calculateInbreeding
      split
      · exact le_refl 0
      · split
        · exact offspringSum_nonneg mode g _ (fun c => ih _ c) _ _
        · exact le_refl 0

/-- The engine's offspring coefficient is non-negative. -/
theorem calculateOffspringInbreeding_nonneg (mode : Mode) (g : Graph) (p q : String) :
    0 ≤ calculateOffspringInbreeding mode g p q :=
  offspringSum_nonneg mode g _ (fun c => calculateInbreeding_nonneg mode g _ _ c) p q

/-- An individual always belongs to its own ancestor closure. -/
theorem self_mem_ancClosure (sv : Bool) (g : Graph) (a : String) :
    a ∈ ancClosure sv g a := by
  unfold ancClosure
  by_cases h : a ∈ getAncestors sv g a
  · simp only [if_pos h]; exact h
  · simp [h]

/-- Disjoint closures give an empty common-ancestor list. -/
theorem commonAncestors_eq_nil (mode : Mode) (g : Graph) (x y : String)
    (h : ∀ c ∈ ancClosure (modeSelfVisited mode) g x,
        c ∉ ancClosure (modeSelfVisited mode) g y) :
    commonAncestors mode g x y = [] := by
  unfold commonAncestors
  rw [List.filter_eq_nil_iff]
  intro c hc
  simpa using h c hc

/-- C8: when the two ancestor closures (each including the individual itself) do not
intersect, `calculateOffspringInbreeding` returns exactly `0`, in either algorithm
mode. -/
theorem c8_disjoint_closures_zero (mode : Mode) (g : Graph) (a b : String)
    (h : ∀ c ∈ ancClosure (modeSelfVisited mode) g a,
        c ∉ ancClosure (modeSelfVisited mode) g b) :
    calculateOffspringInbreeding mode g a b = 0 := by
  unfold calculateOffspringInbreeding
  rw [offspringSum_eq]
  rcases mode with _ | _
  · simp only [sortPair]
    split
    · rw [commonAncestors_eq_nil _ g b a (fun c hcb hca => h c hca hcb)]
      simp
    · rw [commonAncestors_eq_nil _ g a b h]
      simp
  · simp only [sortPair]
    rw [commonAncestors_eq_nil _ g a b h]
    simp

/-- C8 witness: two unrelated half-known individuals get coefficient `0`. -/
theorem c8_disjoint_closures_zero_witness :
    calculateOffspringInbreeding .full disjointGraph "a" "b" = 0 :=
  c8_disjoint_closures_zero .full disjointGraph "a" "b" (by decide)

/-- The one-node path is the whole path set when start equals target. -/
theorem findPaths_self (g : Graph) (x : String) :
    findPathsToAncestorDFS g x x = [[x]] := by
  unfold findPathsToAncestorDFS
  simp

/-- An individual is one of the common ancestors of its self-pairing. -/
theorem self_mem_commonAncestors (mode : Mode) (g : Graph) (x : String) :
    x ∈ commonAncestors mode g x x := by
  unfold commonAncestors
  rw [List.mem_filter]
  refine ⟨self_mem_ancClosure _ g x, ?_⟩
  simpa using self_mem_ancClosure (modeSelfVisited mode) g x

/-- Either mode's pair normalisation is the identity on a self-pair. -/
theorem sortPair_self (mode : Mode) (x : String) : sortPair mode x x = (x, x) := by
  rcases mode with _ | _
  · unfold sortPair
    exact ite_self _
  · rfl

/-- The trivial one-node path pair is allowed in both modes: its interiors are empty,
so the classic independence filter's early-`true` branch accepts it. -/
theorem pairAllowed_single (mode : Mode) (x : String) :
    pairAllowed mode [x] [x] = true := by
  rcases mode with _ | _ <;> rfl

/-- C10: pairing an identifier present in the graph with itself yields a coefficient of
at least one half in either algorithm mode — the individual is a common ancestor of the
pair through the trivial one-node path on each side, that path pair passes the classic
independence filter, contributing `0.5 * (1 + F(x))`, and every other contribution is
non-negative. -/
theorem c10_self_pairing_ge_half (mode : Mode) (g : Graph) (x : String)
    (hx : x ∈ dedupIds g) :
    1 / 2 ≤ calculateOffspringInbreeding mode g x x := by
  unfold calculateOffspringInbreeding
  rw [offspringSum_eq]
  simp only [sortPair_self]
  have hF : ∀ c, 0 ≤ calculateInbreeding mode g (engineFuel g) [] c :=
    fun c => calculateInbreeding_nonneg mode g _ _ c
  have hterm : ∀ v ∈ (commonAncestors mode g x x).map (ancestorContribution mode g
      (calculateInbreeding mode g (engineFuel g) []) x x), 0 ≤ v := by
    intro v hv
    simp only [List.mem_map] at hv
    obtain ⟨c, _, rfl⟩ := hv
    exact ancestorContribution_nonneg _ g _ _ _ c (hF c)
  have hmem : ancestorContribution mode g
      (calculateInbreeding mode g (engineFuel g) []) x x x
      ∈ (commonAncestors mode g x x).map
          (ancestorContribution mode g (calculateInbreeding mode g (engineFuel g) [])
            x x) :=
    List.mem_map_of_mem _ (self_mem_commonAncestors mode g x)
  have hsingle := List.single_le_sum hterm _ hmem
  refine le_trans ?_ hsingle
  unfold ancestorContribution
  rw [findPaths_self]
  simp only [List.map_cons, List.map_nil, List.sum_cons, List.sum_nil]
  unfold pairTerm
  simp only [pairAllowed_single, if_true]
  simp only [List.length_cons, List.length_nil]
  ring_nf
  nlinarith [hF x]

/-- C10 witness: self-pairing the known individual of `selfGraph`, in both the classic
independent-path mode and the full-accumulation mode. -/
theorem c10_self_pairing_ge_half_witness :
    1 / 2 ≤ calculateOffspringInbreeding .classic selfGraph "y" "y" ∧
      1 / 2 ≤ calculateOffspringInbreeding .full selfGraph "y" "y" :=
  ⟨c10_self_pairing_ge_half .classic selfGraph "y" (by decide),
    c10_self_pairing_ge_half .full selfGraph "y" (by decide)⟩

/-- The ancestor accumulator of the BFS only ever receives unseen ids. -/
theorem bfsLoop_nodup (g : Graph) :
    ∀ (fuel : Nat) (queue visited acc : List String), acc.Nodup →
      (bfsLoop g fuel queue visited acc).Nodup := by
  intro fuel
  induction fuel with
  | zero => intro q v acc h; simpa [bfsLoop] using h
  | succ n ih =>
      intro q v acc h
      match q with
      | [] => simpa [bfsLoop] using h
      | cur :: rest =>
          rw [bfsLoop]
          apply ih
          by_cases hc : cur ∈ acc
          · simpa [hc] using h
          · simp only [hc, if_false]
            exact List.Nodup.append h (List.nodup_singleton cur) (by simpa using hc)

/-- `getAncestors` never lists an ancestor twice. -/
theorem getAncestors_nodup (sv : Bool) (g : Graph) (a : String) :
    (getAncestors sv g a).Nodup := by
  unfold getAncestors
  exact bfsLoop_nodup g _ _ _ [] List.nodup_nil

/-- The ancestor closure never lists an individual twice. -/
theorem ancClosure_nodup (sv : Bool) (g : Graph) (a : String) :
    (ancClosure sv g a).Nodup := by
  unfold ancClosure
  by_cases h : a ∈ getAncestors sv g a
  · simp only [if_pos h]
    exact getAncestors_nodup sv g a
  · simp only [if_neg h]
    exact List.Nodup.append (getAncestors_nodup sv g a) (List.nodup_singleton a)
      (by simpa using h)

/-- The common-ancestor list never repeats an ancestor. -/
theorem commonAncestors_nodup (mode : Mode) (g : Graph) (x y : String) :
    (commonAncestors mode g x y).Nodup :=
  List.Nodup.filter _ (ancClosure_nodup _ g x)

/-- Membership in the common-ancestor list is membership in both closures. -/
theorem mem_commonAncestors (mode : Mode) (g : Graph) (x y c : String) :
    c ∈ commonAncestors mode g x y ↔
      c ∈ ancClosure (modeSelfVisited mode) g x ∧
        c ∈ ancClosure (modeSelfVisited mode) g y := by
  unfold commonAncestors
  rw [List.mem_filter]
  simp

/-- Summing a function over two duplicate-free lists with the same members. -/
theorem sum_map_congr_mem (l1 l2 : List String) (h1 : l1.Nodup) (h2 : l2.Nodup)
    (hmem : ∀ c, c ∈ l1 ↔ c ∈ l2) (f : String → ℚ) :
    (l1.map f).sum = (l2.map f).sum := by
  rw [← List.sum_toFinset _ h1, ← List.sum_toFinset _ h2]
  apply Finset.sum_congr
  · ext c
    simp [hmem c]
  · intro _ _
    rfl

/-- Pointwise addition distributes over a mapped sum. -/
theorem sum_map_add {α : Type} (l : List α) (f f' : α → ℚ) :
    (l.map (fun b => f b + f' b)).sum = (l.map f).sum + (l.map f').sum := by
  induction l with
  | nil => simp
  | cons x xs ih => simp [ih]; ring

/-- Exchanging the two summations of a rectangular double sum. -/
theorem sum_sum_comm {α β : Type} (l1 : List α) (l2 : List β) (t : α → β → ℚ) :
    (l1.map (fun a => (l2.map (t a)).sum)).sum
      = (l2.map (fun b => (l1.map (fun a => t a b)).sum)).sum := by
  induction l1 with
  | nil => simp
  | cons x xs ih =>
      simp only [List.map_cons, List.sum_cons, ih]
      rw [← sum_map_add]

/-- The code-point order on character lists is asymmetric. -/
theorem charListLt_asymm : ∀ a b : List Char, charListLt a b = true → charListLt b a = false
  | [], [] => by simp [charListLt]
  | [], _ :: _ => by simp [charListLt]
  | _ :: _, [] => by simp [charListLt]
  | c1 :: r1, c2 :: r2 => by
      intro h
      unfold charListLt at h ⊢
      rcases lt_trichotomy c1 c2 with hc | hc | hc
      · rw [if_neg (not_lt_of_gt hc), if_pos hc]
      · subst hc
        simp only [lt_irrefl, if_neg, not_false_iff, if_false] at h ⊢
        exact charListLt_asymm r1 r2 h
      · simp [not_lt_of_gt hc, hc] at h

/-- The code-point order on character lists is total: two incomparable lists are
equal. -/
theorem charListLt_total_eq : ∀ a b : List Char,
    charListLt a b = false → charListLt b a = false → a = b
  | [], [] => by simp
  | [], _ :: _ => by simp [charListLt]
  | _ :: _, [] => by simp [charListLt]
  | c1 :: r1, c2 :: r2 => by
      intro h1 h2
      unfold charListLt at h1 h2
      rcases lt_trichotomy c1 c2 with hc | hc | hc
      · rw [if_pos hc] at h1
        exact absurd h1 (by simp)
      · subst hc
        simp only [lt_irrefl, if_neg, not_false_iff, if_false] at h1 h2
        rw [charListLt_total_eq r1 r2 h1 h2]
      · rw [if_pos hc] at h2
        exact absurd h2 (by simp)

/-- `strLt` is asymmetric. -/
theorem strLt_asymm (a b : String) (h : strLt a b = true) : strLt b a = false :=
  charListLt_asymm a.data b.data h

/-- `strLt`-incomparable strings are equal. -/
theorem strLt_total_eq (a b : String) (h1 : strLt a b = false) (h2 : strLt b a = false) :
    a = b := by
  have := charListLt_total_eq a.data b.data h1 h2
  cases a
  cases b
  simp only at this
  rw [this]

/-- The full-accumulation path-pair term only depends on the pair of lengths, hence is
symmetric. -/
theorem pairTerm_full_comm (fa : ℚ) (p1 p2 : List String) :
    pairTerm .full fa p1 p2 = pairTerm .full fa p2 p1 := by
  unfold pairTerm
  simp only [pairAllowed, if_true]
  ring_nf

/-- Swapping the two parents swaps nothing in a full-mode ancestor contribution. -/
theorem ancestorContribution_full_comm (g : Graph) (F : String → ℚ) (x y c : String) :
    ancestorContribution .full g F x y c = ancestorContribution .full g F y x c := by
  unfold ancestorContribution
  rw [sum_sum_comm]
  congr 1
  apply List.map_congr_left
  intro p2 _
  congr 1
  apply List.map_congr_left
  intro p1 _
  exact pairTerm_full_comm (F c) p1 p2

/-- The offspring body is symmetric in its two parents, in either mode: the classic
engine normalises the pair up front, and the full engine's per-ancestor contributions
and common-ancestor set are symmetric. -/
theorem offspringSum_comm (mode : Mode) (g : Graph) (F : String → ℚ) (p q : String) :
    offspringSum mode g F p q = offspringSum mode g F q p := by
  rcases mode with _ | _
  · unfold offspringSum
    have : sortPair .classic p q = sortPair .classic q p := by
      simp only [sortPair]
      by_cases h1 : strLt q p = true
      · rw [if_pos h1, if_neg (by rw [strLt_asymm q p h1]; simp)]
      · by_cases h2 : strLt p q = true
        · rw [if_neg (by simpa using h1), if_pos h2]
        · have heq : p = q := strLt_total_eq p q (by simpa using h2) (by simpa using h1)
          rw [heq]
    rw [this]
  · rw [offspringSum_eq, offspringSum_eq]
    simp only [sortPair]
    have hmem : ∀ c, c ∈ commonAncestors .full g p q ↔ c ∈ commonAncestors .full g q p := by
      intro c
      rw [mem_commonAncestors, mem_commonAncestors, and_comm]
    rw [sum_map_congr_mem _ _ (commonAncestors_nodup .full g p q)
      (commonAncestors_nodup .full g q p) hmem]
    congr 1
    apply List.map_congr_left
    intro c _
    exact ancestorContribution_full_comm g F p q c

/-- C5: the offspring coefficient does not depend on the order of the two parents, for
the full-accumulation engines (v0.0.6 / v3.0.1 / v1.1.0) and the classic v1.3.0 engine
alike. -/
theorem c5_offspring_symmetric (mode : Mode) (g : Graph) (a b : String) :
    calculateOffspringInbreeding mode g a b = calculateOffspringInbreeding mode g b a :=
  offspringSum_comm mode g _ a b

/-- Membership in the parent list is exactly a parent edge. -/
theorem mem_parentList_iff (g : Graph) (a p : String) :
    p ∈ parentList g a ↔ parentEdge g a p := by
  unfold parentList parentEdge
  rcases parentsOf g a with ⟨o1, o2⟩
  rcases o1 with _ | p1 <;> rcases o2 with _ | p2 <;> simp <;> tauto

/-- Every parent reference of any identifier is a mentioned identifier. -/
theorem parent_mem_idsAll (g : Graph) (a p : String) (hp : p ∈ parentList g a) :
    p ∈ idsAll g := by
  unfold parentList parentsOf at hp
  rcases hfind : g.find? (fun n => n.id == a) with _ | n
  · rw [hfind] at hp
    simp at hp
  · rw [hfind] at hp
    have hn : n ∈ g := List.mem_of_find?_eq_some hfind
    unfold idsAll
    rw [List.mem_flatMap]
    refine ⟨n, hn, ?_⟩
    simp only [List.mem_cons, List.mem_append]
    simp only [List.mem_append, Option.mem_toList, Option.mem_def] at hp
    rcases hp with hp | hp
    · exact Or.inr (Or.inl (by simp [hp]))
    · exact Or.inr (Or.inr (by simp [hp]))

/-- Parent lists have at most two entries. -/
theorem parentList_length_le (g : Graph) (a : String) : (parentList g a).length ≤ 2 := by
  unfold parentList
  rcases parentsOf g a with ⟨o1, o2⟩
  rcases o1 with _ | p1 <;> rcases o2 with _ | p2 <;> simp

/-- A parent being pushed always ends up visited. -/
theorem pushParent_parent_mem (pOpt : Option String) (qv : List String × List String)
    (p : String) (hp : pOpt = some p) : p ∈ (pushParent pOpt qv).2 := by
  subst hp
  unfold pushParent
  by_cases h : p ∈ qv.2
  · simpa [h] using h
  · simp [h]

/-- The visited set only grows under `pushParent`. -/
theorem pushParent_visited_mono (pOpt : Option String) (qv : List String × List String)
    (x : String) (hx : x ∈ qv.2) : x ∈ (pushParent pOpt qv).2 := by
  unfold pushParent
  rcases pOpt with _ | p
  · exact hx
  · by_cases h : p ∈ qv.2 <;> simp [h, hx]

/-- The queue only grows under `pushParent`. -/
theorem pushParent_queue_mono (pOpt : Option String) (qv : List String × List String)
    (x : String) (hx : x ∈ qv.1) : x ∈ (pushParent pOpt qv).1 := by
  unfold pushParent
  rcases pOpt with _ | p
  · exact hx
  · by_cases h : p ∈ qv.2 <;> simp [h, hx]

/-- Queue membership stays inside the visited set under `pushParent`. -/
theorem pushParent_queue_sub_visited (pOpt : Option String)
    (qv : List String × List String) (h : ∀ x ∈ qv.1, x ∈ qv.2) :
    ∀ x ∈ (pushParent pOpt qv).1, x ∈ (pushParent pOpt qv).2 := by
  unfold pushParent
  rcases pOpt with _ | p
  · exact h
  · by_cases hp : p ∈ qv.2
    · simp only [hp, if_pos]
      exact h
    · simp only [hp, if_neg, not_false_iff]
      intro x hx
      simp only [List.mem_append, List.mem_singleton] at hx ⊢
      rcases hx with hx | hx
      · exact Or.inl (h x hx)
      · exact Or.inr hx

/-- A newly visited id was either already visited or sits in the new queue. -/
theorem pushParent_visited_elim (pOpt : Option String)
    (qv : List String × List String) (v : String)
    (hv : v ∈ (pushParent pOpt qv).2) : v ∈ qv.2 ∨ v ∈ (pushParent pOpt qv).1 := by
  unfold pushParent at hv ⊢
  rcases pOpt with _ | p
  · exact Or.inl hv
  · by_cases hp : p ∈ qv.2
    · simp only [hp, if_pos] at hv
      exact Or.inl hv
    · simp only [hp, if_neg, not_false_iff] at hv ⊢
      simp only [List.mem_append, List.mem_singleton] at hv ⊢
      tauto

/-- Filtering away a present element shortens a list by at least one. -/
theorem filter_ne_length_lt (L : List String) (x : String) (hx : x ∈ L) :
    (L.filter (fun i => i ≠ x)).length + 1 ≤ L.length := by
  have h1 := List.length_eq_length_filter_add (l := L) (fun i => i = x)
  have h2 : 1 ≤ (L.filter (fun i => i = x)).length := by
    have hm : x ∈ L.filter (fun i => i = x) := by
      rw [List.mem_filter]
      simp [hx]
    exact List.length_pos.mpr (List.ne_nil_of_mem hm)
  have h3 : (L.filter (fun i => i ≠ x)).length
      = (L.filter (fun i => !(decide (i = x)))).length := by
    congr 1
    apply List.filter_congr
    intro a _
    simp
  omega

/-- Subtracting one freshly visited mentioned identifier from the potential. -/
theorem unvisitedCount_push (g : Graph) (visited : List String) (p : String)
    (hmem : p ∈ idsAll g) (hnew : p ∉ visited) :
    unvisitedCount g (visited ++ [p]) + 1 ≤ unvisitedCount g visited := by
  unfold unvisitedCount
  have hfil : (dedupIds g).filter (fun i => i ∉ visited ++ [p])
      = ((dedupIds g).filter (fun i => i ∉ visited)).filter (fun i => i ≠ p) := by
    rw [List.filter_filter]
    apply List.filter_congr
    intro x _
    simp only [List.mem_append, List.mem_singleton, decide_not]
    by_cases h1 : x ∈ visited <;> by_cases h2 : x = p <;> simp [h1, h2]
  rw [hfil]
  apply filter_ne_length_lt
  rw [List.mem_filter]
  refine ⟨?_, by simpa using hnew⟩
  unfold dedupIds
  rwa [List.mem_dedup]

/-- `pushParent` never increases the BFS potential. -/
theorem pushParent_potential (g : Graph) (pOpt : Option String)
    (hp : ∀ p, pOpt = some p → p ∈ idsAll g) (q v : List String) :
    (pushParent pOpt (q, v)).1.length + 2 * unvisitedCount g (pushParent pOpt (q, v)).2
      ≤ q.length + 2 * unvisitedCount g v := by
  unfold pushParent
  rcases pOpt with _ | p
  · exact le_refl _
  · by_cases h : p ∈ v
    · simp [h]
    · simp only [h, if_neg, not_false_iff]
      have := unvisitedCount_push g v p (hp p rfl) h
      simp only [List.length_append, List.length_singleton]
      omega

/-- An element of a post-push queue was queued before or is the pushed parent. -/
theorem pushParent_queue_elim (pOpt : Option String) (qv : List String × List String)
    (x : String) (hx : x ∈ (pushParent pOpt qv).1) : x ∈ qv.1 ∨ pOpt = some x := by
  unfold pushParent at hx
  rcases pOpt with _ | p
  · exact Or.inl hx
  · by_cases hp : p ∈ qv.2
    · simp only [hp, if_pos] at hx
      exact Or.inl hx
    · simp only [hp, if_neg, not_false_iff] at hx
      simp only [List.mem_append, List.mem_singleton] at hx
      rcases hx with hx | hx
      · exact Or.inl hx
      · exact Or.inr (by rw [hx])

/-- Soundness of the ancestor BFS: a property closed under parent edges that holds on
the queue and on the accumulator holds on everything the loop returns. -/
theorem bfsLoop_sound (g : Graph) (P : String → Prop)
    (hP : ∀ x, P x → ∀ p ∈ parentList g x, P p) :
    ∀ (fuel : Nat) (queue visited acc : List String),
      (∀ q ∈ queue, P q) → (∀ m ∈ acc, P m) →
      ∀ y ∈ bfsLoop g fuel queue visited acc, P y := by
  intro fuel
  induction fuel with
  | zero =>
      intro q v acc hq hacc y hy
      rw [bfsLoop] at hy
      exact hacc y hy
  | succ n ih =>
      intro q v acc hq hacc y hy
      match q with
      | [] =>
          rw [bfsLoop] at hy
          exact hacc y hy
      | cur :: rest =>
          rw [bfsLoop] at hy
          refine ih _ _ _ ?_ ?_ y hy
          · intro x hx
            rcases pushParent_queue_elim _ _ x hx with hx1 | hx1
            · rcases pushParent_queue_elim _ _ x hx1 with hx2 | hx2
              · exact hq x (List.mem_cons_of_mem cur hx2)
              · refine hP cur (hq cur (List.mem_cons_self cur rest)) x ?_
                rw [mem_parentList_iff]
                exact Or.inl hx2
            · refine hP cur (hq cur (List.mem_cons_self cur rest)) x ?_
              rw [mem_parentList_iff]
              exact Or.inr hx1
          · intro m hm
            by_cases hc : cur ∈ acc
            · simp only [hc, if_pos] at hm
              exact hacc m hm
            · simp only [hc, if_neg, not_false_iff] at hm
              simp only [List.mem_append, List.mem_singleton] at hm
              rcases hm with hm | hm
              · exact hacc m hm
              · rw [hm]
                exact hq cur (List.mem_cons_self cur rest)

/-- Completeness of the ancestor BFS.  Under the loop invariants — the queue is
visited, every visited id is pending or fully expanded, every visited id is blocked
(`BL`), pending or accumulated, accumulated ids are expanded — and with fuel at least
the potential, the loop keeps its accumulator, processes its whole queue, and returns a
set closed under parent edges up to the blocked ids. -/
theorem bfsLoop_complete (g : Graph) (BL : List String) :
    ∀ (fuel : Nat) (queue visited acc : List String),
      queue.length + 2 * unvisitedCount g visited ≤ fuel →
      (∀ q ∈ queue, q ∈ visited) →
      (∀ v ∈ visited, v ∈ queue ∨ ∀ p ∈ parentList g v, p ∈ visited) →
      (∀ v ∈ visited, v ∈ BL ∨ v ∈ queue ∨ v ∈ acc) →
      (∀ y ∈ acc, ∀ p ∈ parentList g y, p ∈ visited) →
      (∀ x ∈ acc, x ∈ bfsLoop g fuel queue visited acc) ∧
      (∀ q ∈ queue, q ∈ bfsLoop g fuel queue visited acc) ∧
      (∀ y ∈ bfsLoop g fuel queue visited acc, ∀ p ∈ parentList g y,
        p ∈ bfsLoop g fuel queue visited acc ∨ p ∈ BL) := by
  intro fuel
  induction fuel with
  | zero =>
      intro q v acc hfuel h1 _h2 h3 h4
      have hq : q = [] := by
        rcases q with _ | ⟨x, xs⟩
        · rfl
        · simp at hfuel
      subst hq
      rw [bfsLoop]
      refine ⟨fun x hx => hx, fun x hx => absurd hx (List.not_mem_nil x), ?_⟩
      intro y hy p hp
      rcases h3 p (h4 y hy p hp) with hb | hb | hb
      · exact Or.inr hb
      · exact absurd hb (List.not_mem_nil p)
      · exact Or.inl hb
  | succ n ih =>
      intro q v acc hfuel h1 h2 h3 h4
      match q with
      | [] =>
          rw [bfsLoop]
          refine ⟨fun x hx => hx, fun x hx => absurd hx (List.not_mem_nil x), ?_⟩
          intro y hy p hp
          rcases h3 p (h4 y hy p hp) with hb | hb | hb
          · exact Or.inr hb
          · exact absurd hb (List.not_mem_nil p)
          · exact Or.inl hb
      | cur :: rest =>
          rw [bfsLoop]
          set p1o := (parentsOf g cur).1 with hp1o
          set p2o := (parentsOf g cur).2 with hp2o
          set acc' := if cur ∈ acc then acc else acc ++ [cur] with hacc'
          set s1 := pushParent p1o (rest, v) with hs1
          set s2 := pushParent p2o s1 with hs2
          -- basic membership facts
          have hcur_acc' : cur ∈ acc' := by
            rw [hacc']
            by_cases hc : cur ∈ acc
            · simpa [hc] using hc
            · simp [hc]
          have hacc_sub : ∀ x ∈ acc, x ∈ acc' := by
            intro x hx
            rw [hacc']
            by_cases hc : cur ∈ acc <;> simp [hc, hx]
          have hacc'_elim : ∀ x ∈ acc', x ∈ acc ∨ x = cur := by
            intro x hx
            rw [hacc'] at hx
            by_cases hc : cur ∈ acc
            · simp only [hc, if_pos] at hx
              exact Or.inl hx
            · simp only [hc, if_neg, not_false_iff] at hx
              simpa using hx
          have hv_mono : ∀ x ∈ v, x ∈ s2.2 := fun x hx =>
            pushParent_visited_mono p2o s1 x (pushParent_visited_mono p1o (rest, v) x hx)
          have hq_mono : ∀ x ∈ s1.1, x ∈ s2.1 := fun x hx =>
            pushParent_queue_mono p2o s1 x hx
          have hrest_q : ∀ x ∈ rest, x ∈ s2.1 := fun x hx =>
            hq_mono x (pushParent_queue_mono p1o (rest, v) x hx)
          have hparents_vis : ∀ p ∈ parentList g cur, p ∈ s2.2 := by
            intro p hp
            rw [mem_parentList_iff] at hp
            rcases hp with hp | hp
            · exact pushParent_visited_mono p2o s1 p
                (pushParent_parent_mem p1o (rest, v) p (by rw [hp1o]; exact hp))
            · exact pushParent_parent_mem p2o s1 p (by rw [hp2o]; exact hp)
          have hs2_elim : ∀ x ∈ s2.2, x ∈ v ∨ x ∈ s2.1 := by
            intro x hx
            rcases pushParent_visited_elim p2o s1 x hx with hx1 | hx1
            · rcases pushParent_visited_elim p1o (rest, v) x hx1 with hx2 | hx2
              · exact Or.inl hx2
              · exact Or.inr (hq_mono x hx2)
            · exact Or.inr hx1
          have hq_elim : ∀ x ∈ s2.1, x ∈ rest ∨ x ∈ parentList g cur := by
            intro x hx
            rcases pushParent_queue_elim p2o s1 x hx with hx1 | hx1
            · rcases pushParent_queue_elim p1o (rest, v) x hx1 with hx2 | hx2
              · exact Or.inl hx2
              · refine Or.inr ?_
                rw [mem_parentList_iff]
                exact Or.inl (hp1o ▸ hx2)
            · refine Or.inr ?_
              rw [mem_parentList_iff]
              exact Or.inr (hp2o ▸ hx1)
          -- fuel for the recursive call
          have hpar1 : ∀ p, p1o = some p → p ∈ idsAll g := by
            intro p hp
            refine parent_mem_idsAll g cur p ?_
            rw [mem_parentList_iff]
            exact Or.inl (hp1o ▸ hp)
          have hpar2 : ∀ p, p2o = some p → p ∈ idsAll g := by
            intro p hp
            refine parent_mem_idsAll g cur p ?_
            rw [mem_parentList_iff]
            exact Or.inr (hp2o ▸ hp)
          have hfuel' : s2.1.length + 2 * unvisitedCount g s2.2 ≤ n := by
            have hstep1 := pushParent_potential g p1o hpar1 rest v
            have hstep2 := pushParent_potential g p2o hpar2 s1.1 s1.2
            rw [Prod.mk.eta] at hstep2
            rw [← hs1] at hstep1
            rw [← hs2] at hstep2
            simp only [List.length_cons] at hfuel
            omega
          have h1' : ∀ x ∈ s2.1, x ∈ s2.2 := by
            apply pushParent_queue_sub_visited
            apply pushParent_queue_sub_visited
            intro x hx
            exact h1 x (List.mem_cons_of_mem cur hx)
          have h2' : ∀ x ∈ s2.2, x ∈ s2.1 ∨ ∀ p ∈ parentList g x, p ∈ s2.2 := by
            intro x hx
            rcases hs2_elim x hx with hx1 | hx1
            · rcases h2 x hx1 with hx2 | hx2
              · rcases List.mem_cons.mp hx2 with hx3 | hx3
                · subst hx3
                  exact Or.inr hparents_vis
                · exact Or.inl (hrest_q x hx3)
              · exact Or.inr (fun p hp => hv_mono p (hx2 p hp))
            · exact Or.inl hx1
          have h3' : ∀ x ∈ s2.2, x ∈ BL ∨ x ∈ s2.1 ∨ x ∈ acc' := by
            intro x hx
            rcases hs2_elim x hx with hx1 | hx1
            · rcases h3 x hx1 with hx2 | hx2 | hx2
              · exact Or.inl hx2
              · rcases List.mem_cons.mp hx2 with hx3 | hx3
                · subst hx3
                  exact Or.inr (Or.inr hcur_acc')
                · exact Or.inr (Or.inl (hrest_q x hx3))
              · exact Or.inr (Or.inr (hacc_sub x hx2))
            · exact Or.inr (Or.inl hx1)
          have h4' : ∀ y ∈ acc', ∀ p ∈ parentList g y, p ∈ s2.2 := by
            intro y hy p hp
            rcases hacc'_elim y hy with hy1 | hy1
            · exact hv_mono p (h4 y hy1 p hp)
            · subst hy1
              exact hparents_vis p hp
          obtain ⟨c1, c2, c3⟩ := ih s2.1 s2.2 acc' hfuel' h1' h2' h3' h4'
          refine ⟨?_, ?_, c3⟩
          · intro x hx
            exact c1 x (hacc_sub x hx)
          · intro x hx
            rcases List.mem_cons.mp hx with hx1 | hx1
            · subst hx1
              exact c1 x hcur_acc'
            · exact c2 x (hrest_q x hx1)

/-- Everything the ancestor walk returns is a proper ancestor (reachable from a
parent). -/
theorem mem_getAncestors_ancestorRel (sv : Bool) (g : Graph) (a : String) :
    ∀ y ∈ getAncestors sv g a, ancestorRel g a y := by
  unfold getAncestors
  intro y hy
  refine bfsLoop_sound g (ancestorRel g a) ?_ _ _ _ _ ?_ ?_ y hy
  · intro x hx p hp
    obtain ⟨r, hr, hreach⟩ := hx
    exact ⟨r, hr, Relation.ReflTransGen.tail hreach ((mem_parentList_iff g x p).mp hp)⟩
  · intro q hq
    exact ⟨q, hq, Relation.ReflTransGen.refl⟩
  · intro m hm
    exact absurd hm (List.not_mem_nil m)

/-- The ancestor walk contains every parent of `a`, and is closed under parent edges
except for edges landing back on `a` itself — in both visited-set variants. -/
theorem getAncestors_spec (sv : Bool) (g : Graph) (a : String) :
    (∀ r ∈ parentList g a, r ∈ getAncestors sv g a) ∧
      (∀ y ∈ getAncestors sv g a, ∀ p ∈ parentList g y,
        p ∈ getAncestors sv g a ∨ p = a) := by
  have key : ∀ v0 : List String, (∀ r ∈ parentList g a, r ∈ v0) →
      (∀ x ∈ v0, x ∈ parentList g a ∨ x = a) →
      (∀ r ∈ parentList g a, r ∈ bfsLoop g (bfsFuel g) (parentList g a) v0 []) ∧
        (∀ y ∈ bfsLoop g (bfsFuel g) (parentList g a) v0 [],
          ∀ p ∈ parentList g y,
            p ∈ bfsLoop g (bfsFuel g) (parentList g a) v0 [] ∨ p = a) := by
    intro v0 hv0 hv0elim
    have hfuel : (parentList g a).length + 2 * unvisitedCount g v0 ≤ bfsFuel g := by
      have h1 := parentList_length_le g a
      have h2 : unvisitedCount g v0 ≤ (dedupIds g).length := by
        unfold unvisitedCount
        exact List.length_filter_le _ _
      unfold bfsFuel
      omega
    have h2 : ∀ v ∈ v0, v ∈ parentList g a ∨ ∀ p ∈ parentList g v, p ∈ v0 := by
      intro v hv
      rcases hv0elim v hv with h | h
      · exact Or.inl h
      · subst h
        exact Or.inr hv0
    have h3 : ∀ v ∈ v0, v ∈ [a] ∨ v ∈ parentList g a ∨ v ∈ ([] : List String) := by
      intro v hv
      rcases hv0elim v hv with h | h
      · exact Or.inr (Or.inl h)
      · exact Or.inl (by simp [h])
    obtain ⟨_, c2, c3⟩ := bfsLoop_complete g [a] (bfsFuel g) (parentList g a) v0 []
      hfuel hv0 h2 h3 (fun y hy => absurd hy (List.not_mem_nil y))
    refine ⟨c2, ?_⟩
    intro y hy p hp
    rcases c3 y hy p hp with h | h
    · exact Or.inl h
    · exact Or.inr (by simpa using h)
  unfold getAncestors
  rcases sv with _ | _
  · simp only [Bool.false_eq_true, if_false]
    exact key (parentList g a) (fun r hr => hr) (fun x hx => Or.inl hx)
  · simp only [if_true]
    refine key (a :: parentList g a) (fun r hr => List.mem_cons_of_mem a hr) ?_
    intro x hx
    rcases List.mem_cons.mp hx with h | h
    · exact Or.inr h
    · exact Or.inl h

/-- A member of the closure is a walked ancestor or the individual itself. -/
theorem mem_ancClosure_elim (sv : Bool) (g : Graph) (a y : String)
    (hy : y ∈ ancClosure sv g a) : y ∈ getAncestors sv g a ∨ y = a := by
  unfold ancClosure at hy
  by_cases h : a ∈ getAncestors sv g a
  · rw [if_pos h] at hy
    exact Or.inl hy
  · rw [if_neg h] at hy
    rcases List.mem_append.mp hy with h1 | h1
    · exact Or.inl h1
    · exact Or.inr (by simpa using h1)

/-- Walked ancestors belong to the closure. -/
theorem mem_ancClosure_of_mem (sv : Bool) (g : Graph) (a y : String)
    (hy : y ∈ getAncestors sv g a) : y ∈ ancClosure sv g a := by
  unfold ancClosure
  by_cases h : a ∈ getAncestors sv g a
  · rwa [if_pos h]
  · rw [if_neg h]
    exact List.mem_append.mpr (Or.inl hy)

/-- Everything reachable from a parent of `a` lies in `a`'s ancestor closure. -/
theorem reach_mem_ancClosure (sv : Bool) (g : Graph) (a r : String)
    (hr : r ∈ parentList g a) :
    ∀ y : String, reachableFrom g r y → y ∈ ancClosure sv g a := by
  intro y h
  induction h with
  | refl => exact mem_ancClosure_of_mem sv g a r ((getAncestors_spec sv g a).1 r hr)
  | tail hrb hedge ih =>
      rename_i b c
      rcases mem_ancClosure_elim sv g a b ih with h1 | h1
      · rcases (getAncestors_spec sv g a).2 b h1 c
            ((mem_parentList_iff g b c).mpr hedge) with h2 | h2
        · exact mem_ancClosure_of_mem sv g a c h2
        · rw [h2]
          exact self_mem_ancClosure sv g a
      · rw [h1] at hedge
        exact mem_ancClosure_of_mem sv g a c
          ((getAncestors_spec sv g a).1 c ((mem_parentList_iff g a c).mpr hedge))

/-- Ancestor-closure membership is exactly "the individual itself or a proper
ancestor", for either visited-set variant: the variants agree as sets. -/
theorem mem_ancClosure_iff (sv : Bool) (g : Graph) (a y : String) :
    y ∈ ancClosure sv g a ↔ y = a ∨ ancestorRel g a y := by
  constructor
  · intro hy
    rcases mem_ancClosure_elim sv g a y hy with h | h
    · exact Or.inr (mem_getAncestors_ancestorRel sv g a y h)
    · exact Or.inl h
  · intro hy
    rcases hy with h | h
    · rw [h]
      exact self_mem_ancClosure sv g a
    · obtain ⟨r, hr, hreach⟩ := h
      exact reach_mem_ancClosure sv g a r hr y hreach

/-- The two modes agree on which individuals are common ancestors. -/
theorem mem_commonAncestors_mode (g : Graph) (x y c : String) :
    c ∈ commonAncestors .classic g x y ↔ c ∈ commonAncestors .full g x y := by
  rw [mem_commonAncestors, mem_commonAncestors]
  simp only [modeSelfVisited]
  rw [mem_ancClosure_iff, mem_ancClosure_iff, mem_ancClosure_iff, mem_ancClosure_iff]

/-- A classic (filtered) path-pair term never exceeds the full term with a larger
ancestor coefficient. -/
theorem pairTerm_classic_le (fa fa' : ℚ) (h0 : 0 ≤ fa) (hle : fa ≤ fa')
    (p1 p2 : List String) : pairTerm .classic fa p1 p2 ≤ pairTerm .full fa' p1 p2 := by
  unfold pairTerm
  simp only [pairAllowed, if_true]
  split
  · exact mul_le_mul_of_nonneg_left (by linarith) (by positivity)
  · have h1 : (0 : ℚ) ≤ 1 + fa' := by linarith
    positivity

/-- A classic ancestor contribution never exceeds the full contribution. -/
theorem ancestorContribution_classic_le (g : Graph) (F F' : String → ℚ)
    (h0 : ∀ c, 0 ≤ F c) (hle : ∀ c, F c ≤ F' c) (x y c : String) :
    ancestorContribution .classic g F x y c
      ≤ ancestorContribution .full g F' x y c := by
  unfold ancestorContribution
  apply List.sum_le_sum
  intro p1 _
  apply List.sum_le_sum
  intro p2 _
  exact pairTerm_classic_le (F c) (F' c) (h0 c) (hle c) p1 p2

/-- The classic offspring body never exceeds the full offspring body, given pointwise
dominated non-negative ancestor coefficients. -/
theorem offspringSum_mode_le (g : Graph) (F F' : String → ℚ) (h0 : ∀ c, 0 ≤ F c)
    (hle : ∀ c, F c ≤ F' c) (p q : String) :
    offspringSum .classic g F p q ≤ offspringSum .full g F' p q := by
  have aligned : ∀ x y : String,
      ((commonAncestors .classic g x y).map
        (ancestorContribution .classic g F x y)).sum
        ≤ ((commonAncestors .full g x y).map
            (ancestorContribution .full g F' x y)).sum := by
    intro x y
    calc ((commonAncestors .classic g x y).map
        (ancestorContribution .classic g F x y)).sum
        ≤ ((commonAncestors .classic g x y).map
            (ancestorContribution .full g F' x y)).sum := by
          apply List.sum_le_sum
          intro c _
          exact ancestorContribution_classic_le g F F' h0 hle x y c
      _ = ((commonAncestors .full g x y).map
            (ancestorContribution .full g F' x y)).sum := by
          exact sum_map_congr_mem _ _ (commonAncestors_nodup .classic g x y)
            (commonAncestors_nodup .full g x y)
            (fun c => mem_commonAncestors_mode g x y c) _
  by_cases hqp : strLt q p = true
  · have hs : sortPair .classic p q = (q, p) := by simp [sortPair, hqp]
    have hfull : offspringSum .full g F' q p = offspringSum .full g F' p q :=
      offspringSum_comm .full g F' q p
    rw [offspringSum_eq, hs, ← hfull, offspringSum_eq]
    exact aligned q p
  · have hs : sortPair .classic p q = (p, q) := by simp [sortPair, hqp]
    rw [offspringSum_eq, hs, offspringSum_eq]
    exact aligned p q

/-- The classic engine's own-inbreeding coefficient never exceeds the full engine's,
at every fuel and guard set. -/
theorem calculateInbreeding_mode_le (g : Graph) :
    ∀ (fuel : Nat) (V : List String) (a : String),
      calculateInbreeding .classic g fuel V a ≤ calculateInbreeding .full g fuel V a := by
  intro fuel
  induction fuel with
  | zero => intro V a; simp [calculateInbreeding]
  | succ n ih =>
      intro V a
      unfold calculateInbreeding
      split
      · exact le_refl 0
      · split
        · exact offspringSum_mode_le g _ _
            (fun c => calculateInbreeding_nonneg .classic g n _ c) (fun c => ih _ c) _ _
        · exact le_refl 0

/-- C2, amended: for every pedigree graph and parent pair, the full-accumulation mode
coefficient is at least the independent-path mode coefficient.  (The second half of the
original claim — that the modes coincide whenever no common ancestor is inbred — is
refuted by `c2_counterexample`.) -/
theorem c2_full_ge_independent (g : Graph) (p q : String) :
    calculateOffspringInbreeding .classic g p q
      ≤ calculateOffspringInbreeding .full g p q :=
  offspringSum_mode_le g _ _
    (fun c => calculateInbreeding_nonneg .classic g _ _ c)
    (fun c => calculateInbreeding_mode_le g _ _ c) p q

/-- C2 counterexample: on `cexModesGraph` every common ancestor of the pair has
inbreeding coefficient `0` in both modes, yet independent-path mode returns `1/8` while
full-accumulation mode returns `5/32` — so the modes do not coincide merely because no
common ancestor is inbred. -/
theorem c2_counterexample :
    (∀ c ∈ commonAncestors .full cexModesGraph "p" "q",
        inbreedingOf .full cexModesGraph c = 0 ∧ inbreedingOf .classic cexModesGraph c = 0) ∧
      calculateOffspringInbreeding .classic cexModesGraph "p" "q" = 1 / 8 ∧
      calculateOffspringInbreeding .full cexModesGraph "p" "q" = 5 / 32 ∧
      calculateOffspringInbreeding .classic cexModesGraph "p" "q"
        ≠ calculateOffspringInbreeding .full cexModesGraph "p" "q" := by
  decide

/-- The BFS loop on an empty queue returns its accumulator at any fuel. -/
theorem bfsLoop_nil (g : Graph) (fuel : Nat) (v acc : List String) :
    bfsLoop g fuel [] v acc = acc := by
  cases fuel <;> rfl

/-- The DFS loop on an empty stack returns its accumulator at any fuel. -/
theorem findPathsLoop_nil (g : Graph) (tgt : String) (fuel : Nat)
    (acc : List (List String)) : findPathsLoop g tgt fuel [] acc = acc := by
  cases fuel <;> rfl

/-- A founder or half-known individual always has coefficient `0`. -/
theorem calculateInbreeding_halfknown (mode : Mode) (g : Graph) (x : String)
    (h : (parentsOf g x).1 = none ∨ (parentsOf g x).2 = none) :
    ∀ (fuel : Nat) (V : List String), calculateInbreeding mode g fuel V x = 0 := by
  intro fuel V
  cases fuel with
  | zero => rfl
  | succ n =>
      rcases hp : parentsOf g x with ⟨o1, o2⟩
      unfold calculateInbreeding
      rw [hp] at h ⊢
      rcases o1 with _ | p1 <;> rcases o2 with _ | p2 <;> simp_all

/-- The ancestor closure of a child of two distinct founders. -/
theorem ancClosure_two_founders (sv : Bool) (g : Graph) (a s d : String)
    (hpa : parentsOf g a = (some s, some d)) (hps : parentsOf g s = (none, none))
    (hpd : parentsOf g d = (none, none)) (hsd : s ≠ d) (has : a ≠ s) (had : a ≠ d) :
    ancClosure sv g a = [s, d, a] := by
  have hroots : parentList g a = [s, d] := by
    unfold parentList
    rw [hpa]
    rfl
  obtain ⟨k, hk⟩ : ∃ k, bfsFuel g = k + 2 :=
    ⟨2 * (dedupIds g).length + 2, by unfold bfsFuel; ring⟩
  have hanc : getAncestors sv g a = [s, d] := by
    unfold getAncestors
    rw [hroots, hk]
    rw [bfsLoop]
    simp only [pushParent, hps, hpd, List.not_mem_nil, if_neg, not_false_iff, if_false,
      List.nil_append]
    rw [bfsLoop]
    simp only [pushParent, hps, hpd]
    have hds : (d ∈ [s]) = False := by simp [Ne.symm hsd]
    simp only [List.mem_singleton, hds, if_false]
    rw [bfsLoop_nil]
    rfl
  unfold ancClosure
  rw [hanc]
  have : (a ∈ [s, d]) = False := by simp [has, had]
  simp only [this, if_false]
  rfl

/-- All DFS paths from a child of founders `s`, `d` to its parent `s`. -/
theorem findPaths_founder_fst (g : Graph) (a s d : String)
    (hpa : parentsOf g a = (some s, some d)) (hpd : parentsOf g d = (none, none))
    (hsd : s ≠ d) (has : a ≠ s) (had : a ≠ d) :
    findPathsToAncestorDFS g a s = [[a, s]] := by
  unfold findPathsToAncestorDFS
  rw [if_neg has]
  obtain ⟨k, hk⟩ : ∃ k, dfsFuel g a = k + 2 := by
    refine ⟨dfsFuel g a - 2, ?_⟩
    have h3 : 3 ≤ dfsFuel g a := by
      unfold dfsFuel
      calc (3 : Nat) = 3 ^ 1 := by norm_num
        _ ≤ 3 ^ ((dfsCarrier g a).length + 1) := Nat.pow_le_pow_right (by norm_num) (by omega)
    omega
  rw [hk]
  simp [findPathsLoop, findPathsLoop_nil, processParentForDFS, hpa, hpd,
    Ne.symm hsd, Ne.symm had]

/-- All DFS paths from a child of founders `s`, `d` to its parent `d`. -/
theorem findPaths_founder_snd (g : Graph) (a s d : String)
    (hpa : parentsOf g a = (some s, some d)) (hps : parentsOf g s = (none, none))
    (hsd : s ≠ d) (has : a ≠ s) (had : a ≠ d) :
    findPathsToAncestorDFS g a d = [[a, d]] := by
  unfold findPathsToAncestorDFS
  rw [if_neg had]
  obtain ⟨k, hk⟩ : ∃ k, dfsFuel g a = k + 2 := by
    refine ⟨dfsFuel g a - 2, ?_⟩
    have h3 : 3 ≤ dfsFuel g a := by
      unfold dfsFuel
      calc (3 : Nat) = 3 ^ 1 := by norm_num
        _ ≤ 3 ^ ((dfsCarrier g a).length + 1) := Nat.pow_le_pow_right (by norm_num) (by omega)
    omega
  rw [hk]
  simp [findPathsLoop, findPathsLoop_nil, processParentForDFS, hpa, hps,
    hsd, Ne.symm has]

/-- A path pair of two one-edge paths contributes `1/8` per unit coefficient, in either
mode (two-node paths have empty interiors, so the classic filter keeps them). -/
theorem pairTerm_two_node (mode : Mode) (x s y t : String) :
    pairTerm mode 0 [x, s] [y, t] = 1 / 8 := by
  rcases mode <;> simp [pairTerm, pairAllowed, arePathsIndependent] <;> norm_num

/-- C6: mating two full siblings of two distinct founder parents yields exactly `1/4`,
in either engine mode. -/
theorem c6_full_sibling_quarter (mode : Mode) (g : Graph) (a b s d : String)
    (hpa : parentsOf g a = (some s, some d)) (hpb : parentsOf g b = (some s, some d))
    (hps : parentsOf g s = (none, none)) (hpd : parentsOf g d = (none, none))
    (hsd : s ≠ d) (hab : a ≠ b) (has : a ≠ s) (had : a ≠ d) (hbs : b ≠ s)
    (hbd : b ≠ d) : calculateOffspringInbreeding mode g a b = 1 / 4 := by
  unfold calculateOffspringInbreeding
  have hFs : calculateInbreeding mode g (engineFuel g) [] s = 0 :=
    calculateInbreeding_halfknown mode g s (by rw [hps]; exact Or.inl rfl) _ _
  have hFd : calculateInbreeding mode g (engineFuel g) [] d = 0 :=
    calculateInbreeding_halfknown mode g d (by rw [hpd]; exact Or.inl rfl) _ _
  have key : ∀ x y : String, parentsOf g x = (some s, some d) →
      parentsOf g y = (some s, some d) → x ≠ s → x ≠ d → y ≠ s → y ≠ d → x ≠ y →
      ((commonAncestors mode g x y).map (ancestorContribution mode g
        (calculateInbreeding mode g (engineFuel g) []) x y)).sum = 1 / 4 := by
    intro x y hpx hpy hxs hxd hys hyd hxy
    have hcx := ancClosure_two_founders (modeSelfVisited mode) g x s d hpx hps hpd hsd hxs hxd
    have hcy := ancClosure_two_founders (modeSelfVisited mode) g y s d hpy hps hpd hsd hys hyd
    have hcom : commonAncestors mode g x y = [s, d] := by
      unfold commonAncestors
      rw [hcx, hcy]
      simp [hxs, hxd, hxy]
    rw [hcom]
    simp only [List.map_cons, List.map_nil, List.sum_cons, List.sum_nil]
    unfold ancestorContribution
    rw [findPaths_founder_fst g x s d hpx hpd hsd hxs hxd,
      findPaths_founder_fst g y s d hpy hpd hsd hys hyd,
      findPaths_founder_snd g x s d hpx hps hsd hxs hxd,
      findPaths_founder_snd g y s d hpy hps hsd hys hyd,
      hFs, hFd]
    simp only [List.map_cons, List.map_nil, List.sum_cons, List.sum_nil]
    rw [pairTerm_two_node, pairTerm_two_node]
    norm_num
  rw [offspringSum_eq]
  rcases mode with _ | _
  · by_cases hba : strLt b a = true
    · have hs : sortPair .classic a b = (b, a) := by simp [sortPair, hba]
      rw [hs]
      exact key b a hpb hpa hbs hbd has had (Ne.symm hab)
    · have hs : sortPair .classic a b = (a, b) := by simp [sortPair, hba]
      rw [hs]
      exact key a b hpa hpb has had hbs hbd hab
  · exact key a b hpa hpb has had hbs hbd hab

/-- C6 witness: the two siblings of `sibGraph`. -/
theorem c6_full_sibling_quarter_witness :
    calculateOffspringInbreeding .full sibGraph "a" "b" = 1 / 4 :=
  c6_full_sibling_quarter .full sibGraph "a" "b" "s" "d" (by decide) (by decide)
    (by decide) (by decide) (by decide) (by decide) (by decide) (by decide) (by decide)
    (by decide)

/-- Eight-decimal rounding preserves non-negativity. -/
theorem round8_nonneg (q : ℚ) (hq : 0 ≤ q) : 0 ≤ round8 q := by
  unfold round8
  have h1 : (0 : ℤ) ≤ round (q * 100000000) := by
    rw [round_eq]
    apply Int.floor_nonneg.mpr
    positivity
  positivity

/-- A falsy identifier never resolves to an animal. -/
theorem getOrCreateAnimal_falsy (m : Graph) (o : Option String)
    (h : jsTruthy o = false) : getOrCreateAnimal m o = Except.ok (none, m) := by
  rcases o with _ | s
  · rfl
  · have hs : s = "" := by simpa [jsTruthy] using h
    subst hs
    rfl

/-- The `Except` bind steps through a successful computation. -/
theorem except_ok_bind {ε α β : Type} (a : α) (k : α → Except ε β) :
    (Except.ok a >>= k) = k a := rfl

/-- An errored step propagates through the `Except` bind. -/
theorem except_error_bind {ε α β : Type} (e : ε) (k : α → Except ε β) :
    ((Except.error e : Except ε α) >>= k) = Except.error e := rfl

/-- Any tuple a strict pairing produces carries a non-negative coefficient. -/
theorem strictPairOutcome_nonneg (cow b : PedRecord) (r : PairResult)
    (h : strictPairOutcome cow b = Except.ok (some r)) :
    0 ≤ r.inbreedingCoefficient := by
  unfold strictPairOutcome at h
  by_cases hb : jsTruthy (jsOr b.sId b.sid) = true
  · simp only [hb, Bool.not_true, Bool.false_eq_true, if_false] at h
    rcases hg : loadPedigreeFromJson true [] [cow, b] with e | g
    · rw [hg, except_error_bind] at h
      exact absurd h (by simp)
    · rw [hg, except_ok_bind] at h
      rcases hc : getOrCreateAnimal g (jsOr cow.sId cow.sid) with e | cres
      · rw [hc, except_error_bind] at h
        exact absurd h (by simp)
      · rw [hc, except_ok_bind] at h
        rcases hbres : getOrCreateAnimal cres.2 (jsOr b.sId b.sid) with e | bres
        · rw [hbres, except_error_bind] at h
          exact absurd h (by simp)
        · rw [hbres, except_ok_bind] at h
          rcases hc1 : cres.1 with _ | cid <;> rcases hb1 : bres.1 with _ | bidT <;>
            rw [hc1, hb1] at h <;> simp only [Except.ok.injEq, Option.some.injEq,
              reduceCtorEq] at h
          rw [← h]
          exact round8_nonneg _ (calculateOffspringInbreeding_nonneg .full _ _ _)
  · simp only [Bool.not_eq_true] at hb
    simp only [hb, Bool.not_false, if_true] at h
    exact absurd h (by simp)

/-- C3, amended: every coefficient in a result list of the strict-pairing pipeline is
non-negative.  (The original upper bound `1` is false — see `c3_counterexample` — so
the interval `[0, 1]` must be weakened to `[0, ∞)`.) -/
theorem c3_coefficient_nonneg (cow : PedRecord) (bulls : List PedRecord)
    (rs : List PairResult)
    (h : calculateBreedingInbreeding6 cow bulls = Except.ok rs) :
    ∀ r ∈ rs, 0 ≤ r.inbreedingCoefficient := by
  have loop : ∀ (bs : List PedRecord) (rs' : List PairResult),
      strictLoop cow bs = Except.ok rs' → ∀ r ∈ rs', 0 ≤ r.inbreedingCoefficient := by
    intro bs
    induction bs with
    | nil =>
        intro rs' h' r hr
        unfold strictLoop at h'
        simp at h'
        subst h'
        exact absurd hr (List.not_mem_nil r)
    | cons b' rest ih =>
        intro rs' h' r hr
        unfold strictLoop at h'
        rcases ho : strictPairOutcome cow b' with e | o
        · rw [ho, except_error_bind] at h'
          exact absurd h' (by simp)
        · rw [ho, except_ok_bind] at h'
          rcases hrest : strictLoop cow rest with e | rs''
          · rw [hrest, except_error_bind] at h'
            exact absurd h' (by simp)
          · rw [hrest, except_ok_bind] at h'
            rcases o with _ | r'
            · simp only [Except.ok.injEq] at h'
              subst h'
              exact ih rs'' hrest r hr
            · simp only [Except.ok.injEq] at h'
              subst h'
              rcases List.mem_cons.mp hr with hr1 | hr1
              · rw [hr1]
                exact strictPairOutcome_nonneg cow b' r' ho
              · exact ih rs'' hrest r hr1
  unfold calculateBreedingInbreeding6 at h
  by_cases hs : topShapeValid cow bulls = true
  · simp only [hs, Bool.not_true, Bool.false_eq_true, if_false] at h
    exact loop bulls rs h
  · simp only [Bool.not_eq_true] at hs
    simp only [hs, Bool.not_false, if_true, Except.ok.injEq] at h
    subst h
    intro r hr
    exact absurd hr (List.not_mem_nil r)

/-- C3 witness for the amended bound: the tuple returned for the `test.js` pair has a
non-negative coefficient. -/
theorem c3_coefficient_nonneg_witness :
    (0 : ℚ) ≤ (PairResult.mk "C1" "C2" (21 / 64)).inbreedingCoefficient :=
  c3_coefficient_nonneg c9cow [c9bull] [⟨"C1", "C2", 21 / 64⟩] (by rfl)
    ⟨"C1", "C2", 21 / 64⟩ (by decide)

/-- C3 counterexample: `c3cow`/`c3bull` describe the acyclic pedigree in which `y` is
bred from the single founder `x` on both sides; pairing `y` with itself — which the
interface accepts — returns the coefficient `5/4`, outside `[0, 1]`. -/
theorem c3_counterexample :
    calculateBreedingInbreeding6 c3cow [c3bull]
        = Except.ok [⟨"y", "y", 5 / 4⟩] ∧
      ¬ ((5 : ℚ) / 4 ≤ 1) := by
  constructor
  · rfl
  · norm_num

/-- The tuple of any partner whose strict pairing succeeds appears in the loop's
output, whatever the other partners are. -/
theorem strictLoop_mem (cow b : PedRecord) (r : PairResult)
    (hr : strictPairOutcome cow b = Except.ok (some r)) :
    ∀ (bs : List PedRecord) (rs : List PairResult),
      strictLoop cow bs = Except.ok rs → b ∈ bs → r ∈ rs := by
  intro bs
  induction bs with
  | nil =>
      intro rs _ hb
      exact absurd hb (List.not_mem_nil b)
  | cons b' rest ih =>
      intro rs h hb
      unfold strictLoop at h
      rcases ho : strictPairOutcome cow b' with e | o
      · rw [ho, except_error_bind] at h
        exact absurd h (by simp)
      · rw [ho, except_ok_bind] at h
        rcases hrest : strictLoop cow rest with e | rs''
        · rw [hrest, except_error_bind] at h
          exact absurd h (by simp)
        · rw [hrest, except_ok_bind] at h
          rcases List.mem_cons.mp hb with hb1 | hb1
          · rw [← hb1] at ho
            have hor : o = some r := by
              have := ho.symm.trans hr
              simpa using this
            subst hor
            simp only [Except.ok.injEq] at h
            subst h
            exact List.mem_cons_self r rs''
          · have hmem := ih rs'' hrest hb1
            rcases o with _ | r' <;> simp only [Except.ok.injEq] at h <;> subst h
            · exact hmem
            · exact List.mem_cons_of_mem r' hmem

/-- An unidentifiable subject never yields a strict-pairing tuple. -/
theorem strictPairOutcome_cow_falsy (cow b : PedRecord)
    (h : jsTruthy (jsOr cow.sId cow.sid) = false) (r : PairResult) :
    strictPairOutcome cow b ≠ Except.ok (some r) := by
  intro hcontra
  unfold strictPairOutcome at hcontra
  by_cases hb : jsTruthy (jsOr b.sId b.sid) = true
  · simp only [hb, Bool.not_true, Bool.false_eq_true, if_false] at hcontra
    rcases hg : loadPedigreeFromJson true [] [cow, b] with e | g
    · rw [hg, except_error_bind] at hcontra
      exact absurd hcontra (by simp)
    · rw [hg, except_ok_bind] at hcontra
      rw [getOrCreateAnimal_falsy g _ h, except_ok_bind] at hcontra
      dsimp only at hcontra
      rcases hbres : getOrCreateAnimal g (jsOr b.sId b.sid) with e | bres
      · rw [hbres, except_error_bind] at hcontra
        exact absurd hcontra (by simp)
      · rw [hbres, except_ok_bind] at hcontra
        exact absurd hcontra (by simp)
  · simp only [Bool.not_eq_true] at hb
    simp only [hb, Bool.not_false, if_true] at hcontra
    exact absurd hcontra (by simp)

/-- C9: in the strict-pairing pipeline, the tuple reported for a partner record depends
only on the subject record and that partner record — whenever both batches contain the
partner record `b` and the pairing of `cow` with `b` alone yields the tuple `r`, both
batch results contain exactly that tuple, regardless of the other partner records. -/
theorem c9_strict_pairing_local (cow b : PedRecord) (bulls1 bulls2 : List PedRecord)
    (rs1 rs2 : List PairResult) (r : PairResult)
    (hr : strictPairOutcome cow b = Except.ok (some r))
    (h1 : calculateBreedingInbreeding6 cow bulls1 = Except.ok rs1)
    (h2 : calculateBreedingInbreeding6 cow bulls2 = Except.ok rs2)
    (hb1 : b ∈ bulls1) (hb2 : b ∈ bulls2) : r ∈ rs1 ∧ r ∈ rs2 := by
  have main : ∀ (bulls : List PedRecord) (rs : List PairResult),
      calculateBreedingInbreeding6 cow bulls = Except.ok rs → b ∈ bulls → r ∈ rs := by
    intro bulls rs h hb
    unfold calculateBreedingInbreeding6 at h
    by_cases hs : topShapeValid cow bulls = true
    · simp only [hs, Bool.not_true, Bool.false_eq_true, if_false] at h
      exact strictLoop_mem cow b r hr bulls rs h hb
    · exfalso
      simp only [Bool.not_eq_true] at hs
      unfold topShapeValid at hs
      rcases hcow : jsTruthy (jsOr cow.sId cow.sid) with _ | _
      · exact strictPairOutcome_cow_falsy cow b hcow r hr
      · rw [hcow] at hs
        simp only [Bool.true_and, Bool.not_eq_false'] at hs
        have hnil : bulls = [] := by
          rcases bulls with _ | ⟨x, xs⟩
          · rfl
          · simp [List.isEmpty] at hs
        subst hnil
        exact absurd hb (List.not_mem_nil b)
  exact ⟨main bulls1 rs1 h1 hb1, main bulls2 rs2 h2 hb2⟩

/-- C9 witness: the `test.js` pair appears with the same tuple in a batch containing
only it and in a batch that also contains an unrelated partner record. -/
theorem c9_strict_pairing_local_witness :
    (⟨"C1", "C2", 21 / 64⟩ : PairResult) ∈
        [(⟨"C1", "C2", 21 / 64⟩ : PairResult)] ∧
      (⟨"C1", "C2", 21 / 64⟩ : PairResult) ∈
        [(⟨"y", "C2", 0⟩ : PairResult), ⟨"C1", "C2", 21 / 64⟩] :=
  c9_strict_pairing_local c9cow c9bull [c9bull] [c3bull, c9bull]
    [⟨"C1", "C2", 21 / 64⟩] [⟨"y", "C2", 0⟩, ⟨"C1", "C2", 21 / 64⟩]
    ⟨"C1", "C2", 21 / 64⟩ (by rfl) (by rfl) (by rfl) (by decide) (by decide)

/-- C1 (code bug): the input passes the top-level shape validation, yet
`calculateBreedingInbreeding` raises — the literal missing-value token `"null"` in an
ancestor slot reaches the `Animal` constructor (the planner's guard checks only
null/undefined/blank, not the literal tokens), which throws instead of treating the
slot as an unknown ancestor. -/
theorem c1_missing_token_crashes :
    topShapeValid c1cow [c1bull] = true ∧
      calculateBreedingInbreedingClassic c1cow [c1bull]
        = Except.error invalidIdMsg :=
  ⟨rfl, rfl⟩

/-- Found-path membership after one parent of the DFS step. -/
theorem processParent_fst (t : String) (pa : List String) (pOpt : Option String)
    (st : List (List String) × List (String × List String)) (P : List String) :
    P ∈ (processParentForDFS t pa pOpt st).1 ↔
      P ∈ st.1 ∨ (pOpt = some t ∧ P = pa ++ [t]) := by
  unfold processParentForDFS
  rcases pOpt with _ | p
  · simp
  · by_cases hpt : p = t
    · subst hpt
      simp [List.mem_append]
    · by_cases hpp : p ∈ pa <;> simp [hpt, hpp]

/-- Pending-push membership after one parent of the DFS step. -/
theorem processParent_snd (t : String) (pa : List String) (pOpt : Option String)
    (st : List (List String) × List (String × List String))
    (e : String × List String) :
    e ∈ (processParentForDFS t pa pOpt st).2 ↔
      e ∈ st.2 ∨ ∃ p, pOpt = some p ∧ ¬p = t ∧ p ∉ pa ∧ e = (p, pa ++ [p]) := by
  unfold processParentForDFS
  rcases pOpt with _ | p
  · simp
  · by_cases hpt : p = t
    · subst hpt
      simp
    · by_cases hpp : p ∈ pa
      · simp only [if_neg hpt, if_pos hpp, Option.some.injEq]
        constructor
        · exact fun h => Or.inl h
        · rintro (h | ⟨p', hp', _, hnp, _⟩)
          · exact h
          · rw [← hp'] at hnp
            exact absurd hpp hnp
      · simp only [if_neg hpt, if_neg hpp, List.mem_append, List.mem_singleton,
          Option.some.injEq]
        constructor
        · rintro (h | h)
          · exact Or.inl h
          · exact Or.inr ⟨p, rfl, hpt, hpp, h⟩
        · rintro (h | ⟨p', hp', _, _, he⟩)
          · exact Or.inl h
          · subst hp'
            exact Or.inr he

/-- The pending-push list grows by at most one entry per processed parent, and any new
entry extends the popped path by exactly one node. -/
theorem processParent_snd_shape (t : String) (pa : List String) (pOpt : Option String)
    (st : List (List String) × List (String × List String)) :
    (processParentForDFS t pa pOpt st).2 = st.2 ∨
      ∃ p, (processParentForDFS t pa pOpt st).2 = st.2 ++ [(p, pa ++ [p])] := by
  unfold processParentForDFS
  rcases pOpt with _ | p
  · exact Or.inl rfl
  · by_cases hpt : p = t
    · left
      simp [hpt]
    · by_cases hpp : p ∈ pa
      · left
        simp [hpt, hpp]
      · right
        exact ⟨p, by simp [hpt, hpp]⟩

/-- A duplicate-free list over a carrier is no longer than the carrier. -/
theorem nodup_subset_length_le (l m : List String) (hn : l.Nodup)
    (hsub : ∀ x ∈ l, x ∈ m) : l.length ≤ m.length := by
  have h1 : l.toFinset.card = l.length := List.toFinset_card_of_nodup hn
  have h2 : l.toFinset ⊆ m.toFinset := by
    intro x hx
    rw [List.mem_toFinset] at hx ⊢
    exact hsub x hx
  calc l.length = l.toFinset.card := h1.symm
    _ ≤ m.toFinset.card := Finset.card_le_card h2
    _ ≤ m.length := m.toFinset_card_le

/-- A chain of parent edges witnesses reachability from its head to its last node. -/
theorem chain_reach (g : Graph) :
    ∀ (l : List String) (x y : String), l.head? = some x → l.getLast? = some y →
      List.Chain' (parentEdge g) l → reachableFrom g x y := by
  intro l
  induction l with
  | nil => intro x y hx _ _; simp at hx
  | cons a l' ih =>
      intro x y hx hy hc
      have hax : a = x := by simpa using hx
      subst hax
      rcases l' with _ | ⟨b, l''⟩
      · have : a = y := by simpa using hy
        subst this
        exact Relation.ReflTransGen.refl
      · rw [List.chain'_cons] at hc
        have hby : reachableFrom g b y := by
          refine ih b y rfl ?_ hc.2
          rw [List.getLast?_cons_cons] at hy
          exact hy
        exact Relation.ReflTransGen.head hc.1 hby

/-- Completing a popped path with a parent equal to the target yields a simple path
properly extending the popped path. -/
theorem hit_extends (g : Graph) (s t : String) (cur : String) (pa : List String)
    (hok : EntryOk g s t (cur, pa)) (hedge : parentEdge g cur t) :
    ExtendsTo g s t pa (pa ++ [t]) := by
  obtain ⟨hh, hl, hc, hn, ht, _⟩ := hok
  refine ⟨⟨?_, ?_, ?_, ?_⟩, [t], by simp, rfl⟩
  · rcases pa with _ | ⟨a, l⟩
    · simp at hh
    · simpa using hh
  · exact List.getLast?_concat _
  · rw [List.chain'_append]
    refine ⟨hc, List.chain'_singleton _, fun x hx y hy => ?_⟩
    rw [Option.mem_def] at hx
    rw [hl] at hx
    injection hx with hx
    subst hx
    have hy' : y = t := by
      have := hy
      simp only [List.head?_cons, Option.mem_def, Option.some.injEq] at this
      exact this.symm
    subst hy'
    exact hedge
  · rw [List.nodup_append]
    refine ⟨hn, List.nodup_singleton _, fun a ha hb => ?_⟩
    rw [List.mem_singleton] at hb
    subst hb
    exact ht ha

/-- A freshly pushed DFS entry is well formed. -/
theorem pushed_entry_ok (g : Graph) (s t : String) (cur : String) (pa : List String)
    (p : String) (hok : EntryOk g s t (cur, pa)) (hedge : parentEdge g cur p)
    (hpt : ¬p = t) (hpp : p ∉ pa) : EntryOk g s t (p, pa ++ [p]) := by
  obtain ⟨hh, hl, hc, hn, ht, hcar⟩ := hok
  refine ⟨?_, ?_, ?_, ?_, ?_, ?_⟩
  · rcases pa with _ | ⟨a, l⟩
    · simp at hh
    · simpa using hh
  · exact List.getLast?_concat _
  · rw [List.chain'_append]
    refine ⟨hc, List.chain'_singleton _, fun x hx y hy => ?_⟩
    rw [Option.mem_def] at hx
    rw [hl] at hx
    injection hx with hx
    subst hx
    have hy' : y = p := by
      have := hy
      simp only [List.head?_cons, Option.mem_def, Option.some.injEq] at this
      exact this.symm
    subst hy'
    exact hedge
  · rw [List.nodup_append]
    refine ⟨hn, List.nodup_singleton _, fun a ha hb => ?_⟩
    rw [List.mem_singleton] at hb
    subst hb
    exact hpp ha
  · intro hmem
    rw [List.mem_append] at hmem
    rcases hmem with h | h
    · exact ht h
    · rw [List.mem_singleton] at h
      exact hpt h.symm
  · intro x hx
    rw [List.mem_append] at hx
    rcases hx with hx | hx
    · exact hcar x hx
    · rw [List.mem_singleton] at hx
      subst hx
      have hpid : x ∈ idsAll g := by
        refine parent_mem_idsAll g cur x ?_
        rcases hedge with hj | hj <;> simp [parentList, hj]
      simp only [dfsCarrier, List.mem_dedup, List.mem_cons]
      exact Or.inr hpid

/-- The node returned by `getLast?` is a member of the list. -/
theorem mem_of_getLast?_eq : ∀ (l : List String) (a : String), l.getLast? = some a → a ∈ l := by
  intro l
  induction l with
  | nil => intro a h; simp at h
  | cons b l' ih =>
      intro a h
      rcases l' with _ | ⟨c, l''⟩
      · simp at h
        simp [h]
      · rw [List.getLast?_cons_cons] at h
        exact List.mem_cons_of_mem b (ih a h)

/-- One DFS pop step, path-logically: the simple paths properly extending the popped
entry's path are exactly the immediate hits plus the paths extending a pushed entry. -/
theorem step_ext_iff (g : Graph) (s t : String) (cur : String) (pa : List String)
    (hok : EntryOk g s t (cur, pa)) (P : List String) :
    (((parentsOf g cur).1 = some t ∧ P = pa ++ [t]) ∨
        ((parentsOf g cur).2 = some t ∧ P = pa ++ [t]) ∨
        (∃ p, (parentsOf g cur).1 = some p ∧ ¬p = t ∧ p ∉ pa ∧
          ExtendsTo g s t (pa ++ [p]) P) ∨
        (∃ p, (parentsOf g cur).2 = some p ∧ ¬p = t ∧ p ∉ pa ∧
          ExtendsTo g s t (pa ++ [p]) P)) ↔
      ExtendsTo g s t pa P := by
  constructor
  · rintro (⟨hp, rfl⟩ | ⟨hp, rfl⟩ | ⟨p, _, _, _, hext⟩ | ⟨p, _, _, _, hext⟩)
    · exact hit_extends g s t cur pa hok (Or.inl hp)
    · exact hit_extends g s t cur pa hok (Or.inr hp)
    · obtain ⟨hsp, rext, hne, hPeq⟩ := hext
      exact ⟨hsp, p :: rext, by simp, by rw [hPeq, List.append_assoc]; rfl⟩
    · obtain ⟨hsp, rext, hne, hPeq⟩ := hext
      exact ⟨hsp, p :: rext, by simp, by rw [hPeq, List.append_assoc]; rfl⟩
  · rintro ⟨hsp, rext, hne, rfl⟩
    obtain ⟨hh2, hl2, hc2, hn2⟩ := hsp
    rcases rext with _ | ⟨r1, r'⟩
    · exact absurd rfl hne
    have hjun : parentEdge g cur r1 := by
      rw [List.chain'_append] at hc2
      exact hc2.2.2 cur (Option.mem_def.mpr hok.2.1) r1 (Option.mem_def.mpr rfl)
    have hnapp := List.nodup_append.mp hn2
    by_cases hrt : r1 = t
    · have hr' : r' = [] := by
        by_contra hr'ne
        have hl2' : (r1 :: r').getLast? = some t := by
          rw [List.getLast?_append_of_ne_nil _ (by simp)] at hl2
          exact hl2
        have htr' : r1 ∈ r' := by
          rcases r' with _ | ⟨b, r''⟩
          · exact absurd rfl hr'ne
          · rw [List.getLast?_cons_cons] at hl2'
            have hmem := mem_of_getLast?_eq (b :: r'') t hl2'
            rw [hrt]
            exact hmem
        exact (List.nodup_cons.mp hnapp.2.1).1 htr'
      subst hr'
      rw [hrt] at hjun
      rcases hjun with hj | hj
      · exact Or.inl ⟨hj, by rw [hrt]⟩
      · exact Or.inr (Or.inl ⟨hj, by rw [hrt]⟩)
    · have hr1pa : r1 ∉ pa := fun hmem => hnapp.2.2 hmem (List.mem_cons_self r1 r')
      have hr'ne : r' ≠ [] := by
        intro h
        subst h
        rw [List.getLast?_concat] at hl2
        injection hl2 with hl2
        exact hrt hl2
      have hext : ExtendsTo g s t (pa ++ [r1]) (pa ++ r1 :: r') :=
        ⟨⟨hh2, hl2, hc2, hn2⟩, r', hr'ne, (List.append_assoc pa [r1] r').symm⟩
      rcases hjun with hj | hj
      · exact Or.inr (Or.inr (Or.inl ⟨r1, hj, hrt, hr1pa, hext⟩))
      · exact Or.inr (Or.inr (Or.inr ⟨r1, hj, hrt, hr1pa, hext⟩))

/-- Unfolding of one DFS loop iteration. -/
theorem findPathsLoop_cons (g : Graph) (t : String) (n : Nat) (e : String × List String)
    (rest : List (String × List String)) (acc : List (List String)) :
    findPathsLoop g t (n + 1) (e :: rest) acc =
      findPathsLoop g t n
        ((processParentForDFS t e.2 (parentsOf g e.1).2
            (processParentForDFS t e.2 (parentsOf g e.1).1 (acc, []))).2.reverse ++ rest)
        (processParentForDFS t e.2 (parentsOf g e.1).2
            (processParentForDFS t e.2 (parentsOf g e.1).1 (acc, []))).1 := rfl

/-- Main DFS loop invariant: with enough fuel (measured by the `3 ^ remaining` stack
potential) and a well-formed stack, the loop returns the accumulator plus exactly the
simple paths properly extending some stack entry. -/
theorem findPathsLoop_spec (g : Graph) (s t : String) :
    ∀ (fuel : Nat) (stack : List (String × List String)) (acc : List (List String)),
      stackCost g s stack ≤ fuel →
      (∀ e ∈ stack, EntryOk g s t e) →
      ∀ P, P ∈ findPathsLoop g t fuel stack acc ↔
        P ∈ acc ∨ ∃ e ∈ stack, ExtendsTo g s t e.2 P := by
  intro fuel
  induction fuel with
  | zero =>
      intro stack acc hcost hok P
      rcases stack with _ | ⟨e, rest⟩
      · simp [findPathsLoop]
      · exfalso
        have h1 : 1 ≤ 3 ^ ((dfsCarrier g s).length + 1 - e.2.length) :=
          Nat.one_le_pow _ _ (by norm_num)
        have h2 : stackCost g s (e :: rest) =
            3 ^ ((dfsCarrier g s).length + 1 - e.2.length) + stackCost g s rest := by
          simp [stackCost]
        linarith
  | succ n ih =>
      intro stack acc hcost hok P
      rcases stack with _ | ⟨e, rest⟩
      · simp [findPathsLoop]
      have hoke := hok e (List.mem_cons_self e rest)
      have hpane : e.2 ≠ [] := by
        intro h
        have hh := hoke.1
        rw [h] at hh
        simp at hh
      have hlen1 : 1 ≤ e.2.length := List.length_pos.mpr hpane
      have hlenN : e.2.length ≤ (dfsCarrier g s).length :=
        nodup_subset_length_le e.2 (dfsCarrier g s) hoke.2.2.2.1 hoke.2.2.2.2.2
      rw [findPathsLoop_cons]
      have hshape1 := processParent_snd_shape t e.2 (parentsOf g e.1).1 (acc, [])
      have hshape2 := processParent_snd_shape t e.2 (parentsOf g e.1).2
          (processParentForDFS t e.2 (parentsOf g e.1).1 (acc, []))
      have hcost2 : stackCost g s
          (processParentForDFS t e.2 (parentsOf g e.1).2
            (processParentForDFS t e.2 (parentsOf g e.1).1 (acc, []))).2.reverse ≤
          2 * 3 ^ ((dfsCarrier g s).length - e.2.length) := by
        have hexp : (dfsCarrier g s).length + 1 - (e.2.length + 1) =
            (dfsCarrier g s).length - e.2.length := by omega
        have hone : 1 ≤ 3 ^ ((dfsCarrier g s).length - e.2.length) :=
          Nat.one_le_pow _ _ (by norm_num)
        rcases hshape2 with h2 | ⟨q, h2⟩ <;> rw [h2] <;>
          [skip; skip] <;>
          rcases hshape1 with h1 | ⟨p, h1⟩ <;> rw [h1] <;>
          simp [stackCost, List.length_append, hexp] <;> linarith
      have hstep : stackCost g s
          ((processParentForDFS t e.2 (parentsOf g e.1).2
            (processParentForDFS t e.2 (parentsOf g e.1).1 (acc, []))).2.reverse ++ rest) ≤
          n := by
        have hsplit : stackCost g s
            ((processParentForDFS t e.2 (parentsOf g e.1).2
              (processParentForDFS t e.2 (parentsOf g e.1).1 (acc, []))).2.reverse ++ rest) =
            stackCost g s
              (processParentForDFS t e.2 (parentsOf g e.1).2
                (processParentForDFS t e.2 (parentsOf g e.1).1 (acc, []))).2.reverse +
              stackCost g s rest := by
          simp [stackCost]
        have hcons : stackCost g s (e :: rest) =
            3 ^ ((dfsCarrier g s).length + 1 - e.2.length) + stackCost g s rest := by
          simp [stackCost]
        have hpow : 3 ^ ((dfsCarrier g s).length + 1 - e.2.length) =
            3 ^ ((dfsCarrier g s).length - e.2.length) * 3 := by
          rw [← pow_succ]
          congr 1
          omega
        have hone : 1 ≤ 3 ^ ((dfsCarrier g s).length - e.2.length) :=
          Nat.one_le_pow _ _ (by norm_num)
        rw [hsplit]
        rw [hcons, hpow] at hcost
        linarith
      have hok' : ∀ e' ∈
          (processParentForDFS t e.2 (parentsOf g e.1).2
            (processParentForDFS t e.2 (parentsOf g e.1).1 (acc, []))).2.reverse ++ rest,
          EntryOk g s t e' := by
        intro e' he'
        rw [List.mem_append, List.mem_reverse] at he'
        rcases he' with he' | he'
        · rw [processParent_snd] at he'
          rcases he' with he' | ⟨p, hp, hpt, hpp, rfl⟩
          · rw [processParent_snd] at he'
            rcases he' with he' | ⟨p, hp, hpt, hpp, rfl⟩
            · exact absurd he' (List.not_mem_nil e')
            · exact pushed_entry_ok g s t e.1 e.2 p hoke (Or.inl hp) hpt hpp
          · exact pushed_entry_ok g s t e.1 e.2 p hoke (Or.inr hp) hpt hpp
        · exact hok e' (List.mem_cons_of_mem e he')
      rw [ih _ _ hstep hok' P]
      have hkey := step_ext_iff g s t e.1 e.2 hoke P
      constructor
      · rintro (hacc | ⟨e', he', hext⟩)
        · rw [processParent_fst] at hacc
          rcases hacc with hacc | hhit2
          · rw [processParent_fst] at hacc
            rcases hacc with hacc | hhit1
            · exact Or.inl hacc
            · exact Or.inr ⟨e, List.mem_cons_self e rest, hkey.mp (Or.inl hhit1)⟩
          · exact Or.inr ⟨e, List.mem_cons_self e rest, hkey.mp (Or.inr (Or.inl hhit2))⟩
        · rw [List.mem_append, List.mem_reverse] at he'
          rcases he' with he' | he'
          · rw [processParent_snd] at he'
            rcases he' with he' | ⟨p, hp, hpt, hpp, rfl⟩
            · rw [processParent_snd] at he'
              rcases he' with he' | ⟨p, hp, hpt, hpp, rfl⟩
              · exact absurd he' (List.not_mem_nil e')
              · exact Or.inr ⟨e, List.mem_cons_self e rest,
                  hkey.mp (Or.inr (Or.inr (Or.inl ⟨p, hp, hpt, hpp, hext⟩)))⟩
            · exact Or.inr ⟨e, List.mem_cons_self e rest,
                hkey.mp (Or.inr (Or.inr (Or.inr ⟨p, hp, hpt, hpp, hext⟩)))⟩
          · exact Or.inr ⟨e', List.mem_cons_of_mem e he', hext⟩
      · rintro (hacc | ⟨e', he', hext⟩)
        · refine Or.inl ?_
          rw [processParent_fst]
          refine Or.inl ?_
          rw [processParent_fst]
          exact Or.inl hacc
        · rcases List.mem_cons.mp he' with rfl | he'
          · rcases hkey.mpr hext with hhit1 | hhit2 | ⟨p, hp, hpt, hpp, hpe⟩ |
              ⟨p, hp, hpt, hpp, hpe⟩
            · refine Or.inl ?_
              rw [processParent_fst]
              refine Or.inl ?_
              rw [processParent_fst]
              exact Or.inr hhit1
            · refine Or.inl ?_
              rw [processParent_fst]
              exact Or.inr hhit2
            · refine Or.inr ⟨(p, e'.2 ++ [p]), ?_, hpe⟩
              rw [List.mem_append, List.mem_reverse]
              refine Or.inl ?_
              rw [processParent_snd]
              refine Or.inl ?_
              rw [processParent_snd]
              exact Or.inr ⟨p, hp, hpt, hpp, rfl⟩
            · refine Or.inr ⟨(p, e'.2 ++ [p]), ?_, hpe⟩
              rw [List.mem_append, List.mem_reverse]
              refine Or.inl ?_
              rw [processParent_snd]
              exact Or.inr ⟨p, hp, hpt, hpp, rfl⟩
          · exact Or.inr ⟨e', by rw [List.mem_append]; exact Or.inr he', hext⟩

/-- C7: `_findPathsToAncestorDFS` enumerates exactly the simple paths from the start
individual to the target along parent edges; it returns the single one-node path when
start equals target, and the empty list when the target is unreachable from the start. -/
theorem c7_simple_path_enumeration (g : Graph) (s t : String) :
    (∀ P, P ∈ findPathsToAncestorDFS g s t ↔ IsSimplePathFromTo g s t P) ∧
      (s = t → findPathsToAncestorDFS g s t = [[s]]) ∧
      (¬reachableFrom g s t → findPathsToAncestorDFS g s t = []) := by
  have hiff : ∀ P, P ∈ findPathsToAncestorDFS g s t ↔ IsSimplePathFromTo g s t P := by
    intro P
    by_cases hst : s = t
    · subst hst
      rw [findPathsToAncestorDFS, if_pos rfl]
      constructor
      · intro hP
        rw [List.mem_singleton] at hP
        subst hP
        exact ⟨rfl, rfl, List.chain'_singleton s, List.nodup_singleton s⟩
      · rintro ⟨hh, hl, hc, hn⟩
        rw [List.mem_singleton]
        rcases P with _ | ⟨a, r⟩
        · simp at hh
        have has : a = s := by simpa using hh
        subst has
        rcases r with _ | ⟨b, r'⟩
        · rfl
        exfalso
        rw [List.getLast?_cons_cons] at hl
        have hmem := mem_of_getLast?_eq (b :: r') a hl
        exact (List.nodup_cons.mp hn).1 hmem
    · rw [findPathsToAncestorDFS, if_neg hst]
      have hcost : stackCost g s [(s, [s])] ≤ dfsFuel g s := by
        have h1 : stackCost g s [(s, [s])] =
            3 ^ ((dfsCarrier g s).length + 1 - 1) := by
          simp [stackCost]
        rw [h1, dfsFuel]
        exact Nat.pow_le_pow_right (by norm_num) (by omega)
      have hok : ∀ e ∈ [((s : String), [s])], EntryOk g s t e := by
        intro e he
        rw [List.mem_singleton] at he
        subst he
        refine ⟨rfl, rfl, List.chain'_singleton s, List.nodup_singleton s, ?_, ?_⟩
        · intro hmem
          rw [List.mem_singleton] at hmem
          exact hst hmem.symm
        · intro x hx
          rw [List.mem_singleton] at hx
          subst hx
          simp [dfsCarrier]
      rw [findPathsLoop_spec g s t (dfsFuel g s) [(s, [s])] [] hcost hok P]
      constructor
      · rintro (h | ⟨e, he, hext⟩)
        · simp at h
        · rw [List.mem_singleton] at he
          subst he
          exact hext.1
      · intro hsp
        refine Or.inr ⟨(s, [s]), List.mem_singleton_self _, ?_⟩
        obtain ⟨hh, hl, hc, hn⟩ := hsp
        rcases P with _ | ⟨a, r⟩
        · simp at hh
        have has : a = s := by simpa using hh
        subst has
        have hrne : r ≠ [] := by
          intro h
          subst h
          have : a = t := by simpa using hl
          exact hst this
        exact ⟨⟨hh, hl, hc, hn⟩, r, hrne, rfl⟩
  refine ⟨hiff, ?_, ?_⟩
  · intro h
    rw [findPathsToAncestorDFS, if_pos h]
  · intro hur
    by_cases hst : s = t
    · subst hst
      exact absurd Relation.ReflTransGen.refl hur
    · rw [List.eq_nil_iff_forall_not_mem]
      intro P hP
      have hsp := (hiff P).mp hP
      exact hur (chain_reach g P s t hsp.1 hsp.2.1 hsp.2.2.1)

/-- C7 witness: on the full-sibling pedigree, the sire path is enumerated, the trivial
pair returns the one-node path, and a founder reaches no non-self target. -/
theorem c7_simple_path_enumeration_witness :
    (["a", "s"] ∈ findPathsToAncestorDFS sibGraph "a" "s") ∧
      findPathsToAncestorDFS sibGraph "a" "a" = [["a"]] ∧
      findPathsToAncestorDFS sibGraph "s" "a" = [] := by
  refine ⟨?_, ?_, ?_⟩
  · exact ((c7_simple_path_enumeration sibGraph "a" "s").1 ["a", "s"]).mpr (by decide)
  · exact (c7_simple_path_enumeration sibGraph "a" "a").2.1 rfl
  · refine (c7_simple_path_enumeration sibGraph "s" "a").2.2 ?_
    intro h
    rcases Relation.ReflTransGen.cases_head h with heq | ⟨b, hb, _⟩
    · exact absurd heq (by decide)
    · have hpar : parentsOf sibGraph "s" = (none, none) := by rfl
      rcases hb with hb | hb <;> rw [hpar] at hb <;> simp at hb

/-- C4 counterexample: a record batch both loaders accept builds the circular pedigree
`g = offspring(c, c)`, `c = offspring(g, g)`; on the pair (c, g) the cached engine
returns 9/4 while the uncached engine returns 5/2 — the caches are observable. -/
theorem c4_counterexample :
    loadPedigreeFromJson false [] [c4rec] = Except.ok cexCacheGraph ∧
      loadPedigreeFromJson true [] [c4rec] = Except.ok cexCacheGraph ∧
      (calculateOffspringInbreedingC .full cexCacheGraph emptyCState "c" "g").1 = 9 / 4 ∧
      calculateOffspringInbreeding .full cexCacheGraph "c" "g" = 5 / 2 ∧
      (calculateOffspringInbreedingC .full cexCacheGraph emptyCState "c" "g").1 ≠
        calculateOffspringInbreeding .full cexCacheGraph "c" "g" := by
  refine ⟨rfl, rfl, by decide, by decide, by decide⟩

/-- A child with a recorded parent edge is itself a mentioned identifier. -/
theorem edge_node_mem (g : Graph) (x z : String) (h : parentEdge g x z) : x ∈ idsAll g := by
  unfold parentEdge parentsOf at h
  rcases hfind : g.find? (fun n => n.id == x) with _ | n
  · rw [hfind] at h
    rcases h with h | h <;> simp at h
  · have hmem := List.mem_of_find?_eq_some hfind
    have hid : n.id = x := by
      have := List.find?_some hfind
      simpa using this
    unfold idsAll
    rw [List.mem_flatMap]
    exact ⟨n, hmem, by rw [hid]; exact List.mem_cons_self _ _⟩

/-- Reachability stays inside the mentioned identifiers. -/
theorem reach_mem_idsAll (g : Graph) (x y : String) (h : reachableFrom g x y)
    (hx : x ∈ idsAll g) : y ∈ idsAll g := by
  induction h with
  | refl => exact hx
  | tail hstep hedge ih =>
      rename_i b c
      exact parent_mem_idsAll g b c ((mem_parentList_iff g b c).mpr hedge)

/-- Every proper ancestor is a mentioned identifier. -/
theorem anc_mem_dedup (g : Graph) (a c : String) (h : ancestorRel g a c) :
    c ∈ dedupIds g := by
  obtain ⟨p, hp, hreach⟩ := h
  rw [dedupIds, List.mem_dedup]
  exact reach_mem_idsAll g p c hreach (parent_mem_idsAll g a p hp)

/-- A grading is antitone along reachability. -/
theorem rank_mono (g : Graph) (rank : String → Nat) (hg : Graded g rank) (x y : String)
    (h : reachableFrom g x y) : rank y ≤ rank x := by
  induction h with
  | refl => exact le_refl _
  | tail hstep hedge ih =>
      rename_i b c
      have hb : b ∈ dedupIds g := by
        rw [dedupIds, List.mem_dedup]
        exact edge_node_mem g b c hedge
      have := hg b hb c ((mem_parentList_iff g b c).mpr hedge)
      omega

/-- An acyclic (graded) pedigree has no individual among its own proper ancestors. -/
theorem no_self_anc (g : Graph) (rank : String → Nat) (hg : Graded g rank) (a : String) :
    ¬ancestorRel g a a := by
  rintro ⟨p, hp, hreach⟩
  have ha : a ∈ dedupIds g := by
    rw [dedupIds, List.mem_dedup]
    exact edge_node_mem g a p ((mem_parentList_iff g a p).mp hp)
  have h1 := hg a ha p hp
  have h2 := rank_mono g rank hg p a hreach
  omega

/-- A proper ancestor is reachable. -/
theorem reach_of_anc (g : Graph) (c x : String) (h : ancestorRel g c x) :
    reachableFrom g c x := by
  obtain ⟨p, hp, hreach⟩ := h
  exact Relation.ReflTransGen.head ((mem_parentList_iff g c p).mp hp) hreach

/-- Closure members are reachable from the individual. -/
theorem closure_reach (sv : Bool) (g : Graph) (c x : String)
    (h : x ∈ ancClosure sv g c) : reachableFrom g c x := by
  rcases (mem_ancClosure_iff sv g c x).mp h with h | h
  · rw [h]
    exact Relation.ReflTransGen.refl
  · exact reach_of_anc g c x h

/-- Reachable individuals belong to the closure. -/
theorem reach_mem_closure (sv : Bool) (g : Graph) (p v : String)
    (h : reachableFrom g p v) : v ∈ ancClosure sv g p := by
  rcases Relation.ReflTransGen.cases_head h with heq | ⟨z, hz, hreach⟩
  · rw [← heq]
    exact self_mem_ancClosure sv g p
  · exact (mem_ancClosure_iff sv g p v).mpr
      (Or.inr ⟨z, (mem_parentList_iff g p z).mpr hz, hreach⟩)

/-- The ancestor closure is transitive. -/
theorem closure_trans (sv : Bool) (g : Graph) (p c v : String)
    (hc : c ∈ ancClosure sv g p) (hv : v ∈ ancClosure sv g c) :
    v ∈ ancClosure sv g p :=
  reach_mem_closure sv g p v
    ((closure_reach sv g p c hc).trans (closure_reach sv g c v hv))

/-- A proper-ancestor fact composed with reachability. -/
theorem anc_reach_trans (g : Graph) (a c x : String) (h1 : ancestorRel g a c)
    (h2 : reachableFrom g c x) : ancestorRel g a x := by
  obtain ⟨p, hp, hreach⟩ := h1
  exact ⟨p, hp, hreach.trans h2⟩

/-- Everything in the closure of one of `a`'s parents is a proper ancestor of `a`. -/
theorem anc_closure_parent (sv : Bool) (g : Graph) (a p c : String)
    (hedge : parentEdge g a p) (hc : c ∈ ancClosure sv g p) : ancestorRel g a c :=
  anc_reach_trans g a p c ⟨p, (mem_parentList_iff g a p).mpr hedge,
    Relation.ReflTransGen.refl⟩ (closure_reach sv g p c hc)

/-- In an acyclic pedigree, an individual is never in the closure of its proper
ancestor. -/
theorem not_mem_closure_of_anc (sv : Bool) (g : Graph) (rank : String → Nat)
    (hg : Graded g rank) (a c : String) (hac : ancestorRel g a c) :
    a ∉ ancClosure sv g c := by
  intro hmem
  exact no_self_anc g rank hg a
    (anc_reach_trans g a c a hac (closure_reach sv g c a hmem))

/-- Members of the closure are key-safe whenever the graph and the root are. -/
theorem keySafe_closure (sv : Bool) (g : Graph) (p c : String) (hks : KeySafeGraph g)
    (hp : keySafeId p) (hc : c ∈ ancClosure sv g p) : keySafeId c := by
  rcases (mem_ancClosure_iff sv g p c).mp hc with h | h
  · rw [h]
    exact hp
  · have := anc_mem_dedup g p c h
    rw [dedupIds, List.mem_dedup] at this
    exact hks c this

/-- The recursion measure drops strictly from an individual to any proper ancestor. -/
theorem rankStar_lt (g : Graph) (rank : String → Nat) (hg : Graded g rank)
    (a c : String) (hac : ancestorRel g a c) : rankStar g c < rankStar g a := by
  unfold rankStar
  have hnd : (dedupIds g).Nodup := List.nodup_dedup _
  have hndc := hnd.filter (fun x => decide (x ∈ ancClosure false g c ∧ ¬x = c))
  have hnda := hnd.filter (fun x => decide (x ∈ ancClosure false g a ∧ ¬x = a))
  rw [← List.toFinset_card_of_nodup hndc, ← List.toFinset_card_of_nodup hnda]
  have hca : c ∈ ancClosure false g a := (mem_ancClosure_iff false g a c).mpr (Or.inr hac)
  have hsub : ((dedupIds g).filter
      (fun x => decide (x ∈ ancClosure false g c ∧ ¬x = c))).toFinset ⊆
      ((dedupIds g).filter
        (fun x => decide (x ∈ ancClosure false g a ∧ ¬x = a))).toFinset := by
    intro x hx
    rw [List.mem_toFinset, List.mem_filter] at hx ⊢
    obtain ⟨hxd, hxp⟩ := hx
    rw [decide_eq_true_eq] at hxp
    refine ⟨hxd, ?_⟩
    rw [decide_eq_true_eq]
    refine ⟨closure_trans false g a c x hca hxp.1, ?_⟩
    intro hxa
    subst hxa
    exact not_mem_closure_of_anc false g rank hg x c hac hxp.1
  refine Finset.card_lt_card ?_
  rw [Finset.ssubset_iff_of_subset hsub]
  refine ⟨c, ?_, ?_⟩
  · rw [List.mem_toFinset, List.mem_filter]
    refine ⟨anc_mem_dedup g a c hac, ?_⟩
    rw [decide_eq_true_eq]
    refine ⟨hca, ?_⟩
    intro hceqa
    subst hceqa
    exact no_self_anc g rank hg c hac
  · rw [List.mem_toFinset, List.mem_filter]
    rintro ⟨_, hp⟩
    rw [decide_eq_true_eq] at hp
    exact hp.2 rfl

/-- The recursion measure is bounded by the number of distinct identifiers. -/
theorem rankStar_le (g : Graph) (a : String) : rankStar g a ≤ (dedupIds g).length :=
  List.length_filter_le _ _

/-- `offspringSum` in full mode does not normalise the pair. -/
theorem offspringSum_full_def (g : Graph) (F : String → ℚ) (p q : String) :
    offspringSum .full g F p q =
      (commonAncestors .full g p q).foldl (fun acc c =>
        pathPairSum .full (F c) (findPathsToAncestorDFS g p c)
          (findPathsToAncestorDFS g q c) acc) 0 := rfl

/-- Congruence of the common-ancestor fold in the coefficient function. -/
theorem foldl_pathPair_congr (mode : Mode) (g : Graph) (x y : String) (F G : String → ℚ) :
    ∀ (L : List String) (acc : ℚ), (∀ c ∈ L, F c = G c) →
      L.foldl (fun acc c => pathPairSum mode (F c) (findPathsToAncestorDFS g x c)
        (findPathsToAncestorDFS g y c) acc) acc =
      L.foldl (fun acc c => pathPairSum mode (G c) (findPathsToAncestorDFS g x c)
        (findPathsToAncestorDFS g y c) acc) acc := by
  intro L
  induction L with
  | nil => intro acc _; rfl
  | cons c rest ih =>
      intro acc h
      simp only [List.foldl_cons]
      rw [h c (List.mem_cons_self c rest)]
      exact ih _ (fun c' hc' => h c' (List.mem_cons_of_mem c hc'))

/-- Congruence of the full-mode coefficient in its ancestor-coefficient function. -/
theorem offspringSum_full_congr (g : Graph) (F G : String → ℚ) (p q : String)
    (h : ∀ c ∈ commonAncestors .full g p q, F c = G c) :
    offspringSum .full g F p q = offspringSum .full g G p q := by
  rw [offspringSum_full_def, offspringSum_full_def]
  exact foldl_pathPair_congr .full g p q F G (commonAncestors .full g p q) 0 h

/-- Fuel and guard-set irrelevance of the uncached engine on an acyclic pedigree:
whenever the fuel exceeds the recursion measure and the guard set is disjoint from the
ancestor closure, `calculateInbreeding` returns the canonical coefficient. -/
theorem calcInb_canonical (g : Graph) (rank : String → Nat) (hg : Graded g rank) :
    ∀ (k : Nat) (a : String), rankStar g a = k → ∀ (fuel : Nat) (V : List String),
      rankStar g a < fuel → (∀ v ∈ V, v ∉ ancClosure false g a) →
      calculateInbreeding .full g fuel V a = inbreedingOf .full g a := by
  intro k
  induction k using Nat.strong_induction_on with
  | _ k ih =>
    intro a hka fuel V hfuel hV
    rcases fuel with _ | m
    · omega
    have hnotV : a ∉ V := fun hmem => hV a hmem (self_mem_ancClosure false g a)
    rw [inbreedingOf, show engineFuel g = (dedupIds g).length + 1 from rfl]
    rw [calculateInbreeding, calculateInbreeding, if_neg hnotV,
      if_neg (List.not_mem_nil a)]
    rcases hpar : parentsOf g a with ⟨o1, o2⟩
    rcases o1 with _ | p1 <;> rcases o2 with _ | p2
    · rfl
    · rfl
    · rfl
    · show offspringSum .full g (calculateInbreeding .full g m (a :: V)) p1 p2 =
        offspringSum .full g (calculateInbreeding .full g (dedupIds g).length [a]) p1 p2
      have hedge : parentEdge g a p1 := Or.inl (by rw [hpar])
      have key : ∀ c ∈ commonAncestors .full g p1 p2, ancestorRel g a c := by
        intro c hc
        have hc1 := ((mem_commonAncestors .full g p1 p2 c).mp hc).1
        exact anc_closure_parent _ g a p1 c hedge hc1
      trans offspringSum .full g (inbreedingOf .full g) p1 p2
      · apply offspringSum_full_congr
        intro c hc
        have hac := key c hc
        have hlt := rankStar_lt g rank hg a c hac
        refine ih (rankStar g c) (by omega) c rfl m (a :: V) (by omega) ?_
        intro v hv hmem
        rcases List.mem_cons.mp hv with rfl | hv'
        · exact not_mem_closure_of_anc false g rank hg _ c hac hmem
        · exact hV v hv' (closure_trans false g a c v
            ((mem_ancClosure_iff false g a c).mpr (Or.inr hac)) hmem)
      · symm
        apply offspringSum_full_congr
        intro c hc
        have hac := key c hc
        have hlt := rankStar_lt g rank hg a c hac
        have hle := rankStar_le g a
        refine ih (rankStar g c) (by omega) c rfl (dedupIds g).length [a] (by omega) ?_
        intro v hv hmem
        rw [List.mem_singleton] at hv
        subst hv
        exact not_mem_closure_of_anc false g rank hg _ c hac hmem

/-- Fixpoint equation of the canonical coefficient at a fully-known individual. -/
theorem inbreedingOf_parents (g : Graph) (rank : String → Nat) (hg : Graded g rank)
    (a p1 p2 : String) (hpar : parentsOf g a = (some p1, some p2)) :
    inbreedingOf .full g a = offspringSum .full g (inbreedingOf .full g) p1 p2 := by
  rw [inbreedingOf, show engineFuel g = (dedupIds g).length + 1 from rfl]
  rw [calculateInbreeding, if_neg (List.not_mem_nil a), hpar]
  show offspringSum .full g (calculateInbreeding .full g (dedupIds g).length [a]) p1 p2 = _
  apply offspringSum_full_congr
  intro c hc
  have hedge : parentEdge g a p1 := Or.inl (by rw [hpar])
  have hac : ancestorRel g a c := anc_closure_parent _ g a p1 c hedge
    ((mem_commonAncestors .full g p1 p2 c).mp hc).1
  have hlt := rankStar_lt g rank hg a c hac
  have hle := rankStar_le g a
  refine calcInb_canonical g rank hg (rankStar g c) c rfl (dedupIds g).length [a]
    (by omega) ?_
  intro v hv hmem
  rw [List.mem_singleton] at hv
  subst hv
  exact not_mem_closure_of_anc false g rank hg _ c hac hmem

/-- The canonical coefficient of a founder or half-known individual is zero. -/
theorem inbreedingOf_noparent (g : Graph) (a : String)
    (h : (parentsOf g a).1 = none ∨ (parentsOf g a).2 = none) :
    inbreedingOf .full g a = 0 := by
  rw [inbreedingOf, show engineFuel g = (dedupIds g).length + 1 from rfl]
  rw [calculateInbreeding, if_neg (List.not_mem_nil a)]
  rcases hpar : parentsOf g a with ⟨o1, o2⟩
  rw [hpar] at h
  rcases o1 with _ | p1 <;> rcases o2 with _ | p2
  · rfl
  · rfl
  · rfl
  · rcases h with h | h <;> simp at h

/-- JS `Map.get` after `Map.set`. -/
theorem mapGet_mapSet {α : Type} (m : List (String × α)) (k : String) (v : α)
    (q : String) : mapGet (mapSet m k v) q = if q = k then some v else mapGet m q := by
  induction m with
  | nil =>
      show (if k = q then some v else none) = if q = k then some v else none
      by_cases h : q = k
      · rw [if_pos h.symm, if_pos h]
      · rw [if_neg (fun hh : k = q => h hh.symm), if_neg h]
  | cons e rest ih =>
      obtain ⟨k0, v0⟩ := e
      show mapGet (if k0 = k then (k, v) :: rest else (k0, v0) :: mapSet rest k v) q = _
      by_cases h0 : k0 = k
      · rw [if_pos h0]
        show (if k = q then some v else mapGet rest q) =
          if q = k then some v else if k0 = q then some v0 else mapGet rest q
        by_cases h : q = k
        · rw [if_pos h.symm, if_pos h]
        · rw [if_neg (fun hh : k = q => h hh.symm), if_neg h,
            if_neg (fun hh : k0 = q => h (hh ▸ h0))]
      · rw [if_neg h0]
        show (if k0 = q then some v0 else mapGet (mapSet rest k v) q) =
          if q = k then some v else if k0 = q then some v0 else mapGet rest q
        by_cases hq : k0 = q
        · rw [if_pos hq, if_neg (fun hh : q = k => h0 (hq.trans hh)), if_pos hq]
        · rw [if_neg hq, ih]
          by_cases h : q = k
          · rw [if_pos h, if_pos h]
          · rw [if_neg h, if_neg h, if_neg hq]

/-- Splitting at a separator character absent from both prefixes is unambiguous. -/
theorem append_sep_inj (c : Char) :
    ∀ (l1 l1' l2 l2' : List Char), c ∉ l1 → c ∉ l1' →
      l1 ++ c :: l2 = l1' ++ c :: l2' → l1 = l1' ∧ l2 = l2' := by
  intro l1
  induction l1 with
  | nil =>
      intro l1' l2 l2' _ h1' heq
      rcases l1' with _ | ⟨h', t'⟩
      · simp only [List.nil_append] at heq
        injection heq with _ ht
        exact ⟨rfl, ht⟩
      · simp only [List.nil_append, List.cons_append] at heq
        injection heq with hh _
        exact absurd (List.mem_cons.mpr (Or.inl hh)) h1'
  | cons h t ih =>
      intro l1' l2 l2' h1 h1' heq
      rcases l1' with _ | ⟨h', t'⟩
      · simp only [List.cons_append, List.nil_append] at heq
        injection heq with hh _
        exact absurd (List.mem_cons.mpr (Or.inl hh.symm)) h1
      · simp only [List.cons_append] at heq
        injection heq with hh ht
        have hnt : c ∉ t := fun hmem => h1 (List.mem_cons.mpr (Or.inr hmem))
        have hnt' : c ∉ t' := fun hmem => h1' (List.mem_cons.mpr (Or.inr hmem))
        obtain ⟨e1, e2⟩ := ih t' l2 l2' hnt hnt' ht
        exact ⟨by rw [hh, e1], e2⟩

/-- The offspring-cache key is injective on comma-free identifiers. -/
theorem offKey_inj (x y x' y' : String) (hx : keySafeId x) (hx' : keySafeId x')
    (h : offKey x y = offKey x' y') : x = x' ∧ y = y' := by
  have hd : x.data ++ ',' :: y.data = x'.data ++ ',' :: y'.data := by
    have hc := congrArg String.data h
    simpa [offKey, String.data_append] using hc
  obtain ⟨e1, e2⟩ := append_sep_inj ',' x.data x'.data y.data y'.data hx.1 hx'.1 hd
  exact ⟨String.ext e1, String.ext e2⟩

/-- The path-cache key is injective on dash-free identifiers. -/
theorem pathKey_inj (x y x' y' : String) (hx : keySafeId x) (hx' : keySafeId x')
    (h : pathKey x y = pathKey x' y') : x = x' ∧ y = y' := by
  have hd : x.data ++ '-' :: '>' :: y.data = x'.data ++ '-' :: '>' :: y'.data := by
    have hc := congrArg String.data h
    simpa [pathKey, String.data_append] using hc
  obtain ⟨e1, e2⟩ := append_sep_inj '-' x.data x'.data ('>' :: y.data) ('>' :: y'.data)
    hx.2 hx'.2 hd
  injection e2 with _ e3
  exact ⟨String.ext e1, String.ext e3⟩

/-- Reading `_findPathsToAncestorWithCache` on a sound state returns the uncached DFS
result and preserves soundness and the recursion guard. -/
theorem getPathsCached_spec (g : Graph) (st : CState) (s t : String)
    (hsound : SoundState g st) (hs : keySafeId s) (ht : keySafeId t) :
    (getPathsCached g st s t).1 = findPathsToAncestorDFS g s t ∧
      SoundState g (getPathsCached g st s t).2 ∧
      (getPathsCached g st s t).2.visiting = st.visiting := by
  unfold getPathsCached
  rcases hget : mapGet st.pathCache (pathKey s t) with _ | ps
  · refine ⟨rfl, ?_, rfl⟩
    obtain ⟨hinb, hoff, hpath⟩ := hsound
    refine ⟨hinb, hoff, ?_⟩
    intro k v hk
    rw [mapGet_mapSet] at hk
    by_cases hkk : k = pathKey s t
    · rw [if_pos hkk] at hk
      injection hk with hk
      exact ⟨s, t, hs, ht, hkk, hk.symm⟩
    · rw [if_neg hkk] at hk
      exact hpath k v hk
  · refine ⟨?_, hsound, rfl⟩
    obtain ⟨x, y, hxks, hyks, hkey, hval⟩ := hsound.2.2 _ _ hget
    obtain ⟨e1, e2⟩ := pathKey_inj x y s t hxks hs hkey.symm
    rw [hval, e1, e2]

/-- Unfolding of the cached offspring computation in full mode. -/
theorem offspringFoldC_full_def (g : Graph) (FC : CState → String → ℚ × CState)
    (st : CState) (p q : String) :
    offspringFoldC .full g FC st p q =
      match mapGet st.offCache (offKey p q) with
      | some v => (v, st)
      | none =>
          let res := (commonAncestors .full g p q).foldl
            (fun (acc : ℚ × CState) c =>
              let fa := FC acc.2 c
              let ps1 := getPathsCached g fa.2 p c
              let ps2 := getPathsCached g ps1.2 q c
              (pathPairSum .full fa.1 ps1.1 ps2.1 acc.1, ps2.2)) (0, st)
          (res.1, { res.2 with offCache := mapSet res.2.offCache (offKey p q) res.1 }) :=
  rfl

/-- The common-ancestor fold of the cached engine computes the uncached fold and
preserves soundness and the recursion guard. -/
theorem offFoldLoop_correct (g : Graph) (hks : KeySafeGraph g)
    (FC : CState → String → ℚ × CState) (p q : String) (W : List String)
    (hp : keySafeId p) (hq : keySafeId q)
    (hFC : ∀ (st1 : CState) (c : String), c ∈ ancClosure false g p → SoundState g st1 →
      st1.visiting = W →
      (FC st1 c).1 = inbreedingOf .full g c ∧ SoundState g (FC st1 c).2 ∧
        (FC st1 c).2.visiting = W) :
    ∀ (L : List String) (acc : ℚ × CState), (∀ c ∈ L, c ∈ ancClosure false g p) →
      SoundState g acc.2 → acc.2.visiting = W →
      (L.foldl (fun (acc : ℚ × CState) c =>
          let fa := FC acc.2 c
          let ps1 := getPathsCached g fa.2 p c
          let ps2 := getPathsCached g ps1.2 q c
          (pathPairSum .full fa.1 ps1.1 ps2.1 acc.1, ps2.2)) acc).1 =
        L.foldl (fun a c => pathPairSum .full (inbreedingOf .full g c)
          (findPathsToAncestorDFS g p c) (findPathsToAncestorDFS g q c) a) acc.1 ∧
      SoundState g (L.foldl (fun (acc : ℚ × CState) c =>
          let fa := FC acc.2 c
          let ps1 := getPathsCached g fa.2 p c
          let ps2 := getPathsCached g ps1.2 q c
          (pathPairSum .full fa.1 ps1.1 ps2.1 acc.1, ps2.2)) acc).2 ∧
      (L.foldl (fun (acc : ℚ × CState) c =>
          let fa := FC acc.2 c
          let ps1 := getPathsCached g fa.2 p c
          let ps2 := getPathsCached g ps1.2 q c
          (pathPairSum .full fa.1 ps1.1 ps2.1 acc.1, ps2.2)) acc).2.visiting = W := by
  intro L
  induction L with
  | nil =>
      intro acc _ hs hv
      exact ⟨rfl, hs, hv⟩
  | cons c rest ih =>
      intro acc hL hs hv
      have hc : c ∈ ancClosure false g p := hL c (List.mem_cons_self c rest)
      have hcks : keySafeId c := keySafe_closure false g p c hks hp hc
      have hfa := hFC acc.2 c hc hs hv
      have hps1 := getPathsCached_spec g (FC acc.2 c).2 p c hfa.2.1 hp hcks
      have hps2 := getPathsCached_spec g (getPathsCached g (FC acc.2 c).2 p c).2 q c
        hps1.2.1 hq hcks
      simp only [List.foldl_cons]
      have hrest := ih (pathPairSum .full (FC acc.2 c).1
          (getPathsCached g (FC acc.2 c).2 p c).1
          (getPathsCached g (getPathsCached g (FC acc.2 c).2 p c).2 q c).1 acc.1,
          (getPathsCached g (getPathsCached g (FC acc.2 c).2 p c).2 q c).2)
        (fun c' hc' => hL c' (List.mem_cons_of_mem c hc')) hps2.2.1
        (by rw [hps2.2.2, hps1.2.2, hfa.2.2])
      refine ⟨?_, hrest.2.1, hrest.2.2⟩
      rw [hrest.1]
      congr 1
      rw [hfa.1, hps1.1, hps2.1]

/-- The cached offspring computation on a sound state returns the uncached full-mode
coefficient and preserves soundness and the recursion guard. -/
theorem offFold_correct (g : Graph) (hks : KeySafeGraph g)
    (FC : CState → String → ℚ × CState) (st : CState) (p q : String)
    (hsound : SoundState g st) (hp : keySafeId p) (hq : keySafeId q)
    (hFC : ∀ (st1 : CState) (c : String), c ∈ ancClosure false g p → SoundState g st1 →
      st1.visiting = st.visiting →
      (FC st1 c).1 = inbreedingOf .full g c ∧ SoundState g (FC st1 c).2 ∧
        (FC st1 c).2.visiting = st.visiting) :
    (offspringFoldC .full g FC st p q).1 =
        offspringSum .full g (inbreedingOf .full g) p q ∧
      SoundState g (offspringFoldC .full g FC st p q).2 ∧
      (offspringFoldC .full g FC st p q).2.visiting = st.visiting := by
  rw [offspringFoldC_full_def]
  rcases hget : mapGet st.offCache (offKey p q) with _ | v
  · have hfold := offFoldLoop_correct g hks FC p q st.visiting hp hq hFC
      (commonAncestors .full g p q) (0, st)
      (fun c hc => ((mem_commonAncestors .full g p q c).mp hc).1) hsound rfl
    refine ⟨?_, ?_, ?_⟩
    · exact hfold.1.trans (offspringSum_full_def g (inbreedingOf .full g) p q).symm
    · obtain ⟨hinb, hoff, hpath⟩ := hfold.2.1
      refine ⟨hinb, ?_, hpath⟩
      intro k v hk
      dsimp only at hk
      rw [mapGet_mapSet] at hk
      by_cases hkk : k = offKey p q
      · rw [if_pos hkk] at hk
        injection hk with hk
        refine ⟨p, q, hp, hq, hkk, ?_⟩
        rw [← hk]
        exact hfold.1.trans (offspringSum_full_def g (inbreedingOf .full g) p q).symm
      · rw [if_neg hkk] at hk
        exact hoff k v hk
    · exact hfold.2.2
  · obtain ⟨x, y, hxks, hyks, hkey, hval⟩ := hsound.2.1 _ _ hget
    obtain ⟨e1, e2⟩ := offKey_inj x y p q hxks hp hkey.symm
    refine ⟨?_, hsound, rfl⟩
    rw [hval, e1, e2]

/-- The cached engine of v1.1.0 computes the canonical uncached coefficient on an
acyclic key-safe pedigree, preserves state soundness and restores the recursion guard. -/
theorem calcInbC_canonical (g : Graph) (rank : String → Nat) (hg : Graded g rank)
    (hks : KeySafeGraph g) :
    ∀ (n : Nat) (st : CState) (a : String), SoundState g st →
      (∀ v ∈ st.visiting, v ∉ ancClosure false g a) → rankStar g a < n →
      (calculateInbreedingC .full g n st a).1 = inbreedingOf .full g a ∧
        SoundState g (calculateInbreedingC .full g n st a).2 ∧
        (calculateInbreedingC .full g n st a).2.visiting = st.visiting := by
  intro n
  induction n with
  | zero => intro st a _ _ h; omega
  | succ n ih =>
      intro st a hsound hguard hrk
      rw [calculateInbreedingC]
      rcases hgetI : mapGet st.inbCache a with _ | v
      · have hnotvis : a ∉ st.visiting :=
          fun hmem => hguard a hmem (self_mem_ancClosure false g a)
        rw [if_neg hnotvis]
        rcases hpar : parentsOf g a with ⟨o1, o2⟩
        rcases o1 with _ | p1 <;> rcases o2 with _ | p2
        · refine ⟨(inbreedingOf_noparent g a (by rw [hpar]; exact Or.inl rfl)).symm,
            ⟨?_, hsound.2.1, hsound.2.2⟩, ?_⟩
          · intro k v hk
            dsimp only at hk
            rw [mapGet_mapSet] at hk
            by_cases hkk : k = a
            · rw [if_pos hkk] at hk
              injection hk with hk
              rw [← hk, hkk]
              exact (inbreedingOf_noparent g a (by rw [hpar]; exact Or.inl rfl)).symm
            · rw [if_neg hkk] at hk
              exact hsound.1 k v hk
          · dsimp only
            exact List.erase_cons_head a st.visiting
        · refine ⟨(inbreedingOf_noparent g a (by rw [hpar]; exact Or.inl rfl)).symm,
            ⟨?_, hsound.2.1, hsound.2.2⟩, ?_⟩
          · intro k v hk
            dsimp only at hk
            rw [mapGet_mapSet] at hk
            by_cases hkk : k = a
            · rw [if_pos hkk] at hk
              injection hk with hk
              rw [← hk, hkk]
              exact (inbreedingOf_noparent g a (by rw [hpar]; exact Or.inl rfl)).symm
            · rw [if_neg hkk] at hk
              exact hsound.1 k v hk
          · dsimp only
            exact List.erase_cons_head a st.visiting
        · refine ⟨(inbreedingOf_noparent g a (by rw [hpar]; exact Or.inr rfl)).symm,
            ⟨?_, hsound.2.1, hsound.2.2⟩, ?_⟩
          · intro k v hk
            dsimp only at hk
            rw [mapGet_mapSet] at hk
            by_cases hkk : k = a
            · rw [if_pos hkk] at hk
              injection hk with hk
              rw [← hk, hkk]
              exact (inbreedingOf_noparent g a (by rw [hpar]; exact Or.inr rfl)).symm
            · rw [if_neg hkk] at hk
              exact hsound.1 k v hk
          · dsimp only
            exact List.erase_cons_head a st.visiting
        · have hedge1 : parentEdge g a p1 := Or.inl (by rw [hpar])
          have hedge2 : parentEdge g a p2 := Or.inr (by rw [hpar])
          have hp1ks : keySafeId p1 :=
            hks p1 (parent_mem_idsAll g a p1 ((mem_parentList_iff g a p1).mpr hedge1))
          have hp2ks : keySafeId p2 :=
            hks p2 (parent_mem_idsAll g a p2 ((mem_parentList_iff g a p2).mpr hedge2))
          have hro := offFold_correct g hks (calculateInbreedingC .full g n)
            { st with visiting := a :: st.visiting } p1 p2 hsound hp1ks hp2ks ?hFCgoal
          case hFCgoal =>
            intro st1 c hc hs1 hv1
            have hac : ancestorRel g a c := anc_closure_parent false g a p1 c hedge1 hc
            have hih := ih st1 c hs1 ?_ ?_
            · exact ⟨hih.1, hih.2.1, by rw [hih.2.2, hv1]⟩
            · intro v hv hmem
              rw [hv1] at hv
              rcases List.mem_cons.mp hv with rfl | hv'
              · exact not_mem_closure_of_anc false g rank hg _ c hac hmem
              · exact hguard v hv' ((mem_ancClosure_iff false g a _).mpr
                  (Or.inr (anc_reach_trans g a c _ hac
                    (closure_reach false g c _ hmem))))
            · have := rankStar_lt g rank hg a c hac
              omega
          obtain ⟨h1, h2, h3⟩ := hro
          refine ⟨?_, ⟨?_, h2.2.1, h2.2.2⟩, ?_⟩
          · exact h1.trans (inbreedingOf_parents g rank hg a p1 p2 hpar).symm
          · intro k v hk
            dsimp only at hk
            rw [mapGet_mapSet] at hk
            by_cases hkk : k = a
            · rw [if_pos hkk] at hk
              injection hk with hk
              rw [← hk, hkk]
              exact h1.trans (inbreedingOf_parents g rank hg a p1 p2 hpar).symm
            · rw [if_neg hkk] at hk
              exact h2.1 k v hk
          · dsimp only
            dsimp only at h3
            rw [h3]
            exact List.erase_cons_head a st.visiting
      · exact ⟨hsound.1 a v hgetI, hsound, rfl⟩

/-- C4 (amended): on an acyclic pedigree whose identifiers are key-safe (no `','` or
`'-'`, so the string cache keys cannot collide), the cached engine of v1.1.0 started
from a fresh calculator returns exactly the uncached v0.0.6 coefficient for every
pair — memoization is transparent; the unrestricted claim is refuted by
`c4_counterexample`. -/
theorem c4_cache_transparent_acyclic (g : Graph) (p q : String)
    (hacyc : AcyclicGraph g) (hks : KeySafeGraph g) (hp : keySafeId p)
    (hq : keySafeId q) :
    (calculateOffspringInbreedingC .full g emptyCState p q).1 =
      calculateOffspringInbreeding .full g p q := by
  obtain ⟨rank, hg⟩ := hacyc
  have hempty : SoundState g emptyCState := by
    refine ⟨?_, ?_, ?_⟩ <;> intro k v h <;> simp [emptyCState, mapGet] at h
  have hro := offFold_correct g hks (calculateInbreedingC .full g (engineFuel g))
    emptyCState p q hempty hp hq ?hFC
  case hFC =>
    intro st1 c hc hs1 hv1
    have hcc := calcInbC_canonical g rank hg hks (engineFuel g) st1 c hs1 ?_ ?_
    · exact ⟨hcc.1, hcc.2.1, by rw [hcc.2.2, hv1]⟩
    · intro v hv hmem
      rw [hv1] at hv
      simp [emptyCState] at hv
    · have h1 := rankStar_le g c
      have h2 : engineFuel g = (dedupIds g).length + 1 := rfl
      omega
  rw [show calculateOffspringInbreedingC .full g emptyCState p q =
    offspringFoldC .full g (calculateInbreedingC .full g (engineFuel g))
      emptyCState p q from rfl]
  rw [hro.1]
  rw [show calculateOffspringInbreeding .full g p q =
    offspringSum .full g (calculateInbreeding .full g (engineFuel g) []) p q from rfl]
  apply offspringSum_full_congr
  intro c hc
  have h1 := rankStar_le g c
  have h2 : engineFuel g = (dedupIds g).length + 1 := rfl
  exact (calcInb_canonical g rank hg (rankStar g c) c rfl (engineFuel g) []
    (by omega) (fun v hv => absurd hv (List.not_mem_nil v))).symm

/-- C4 witness: the full-sibling pedigree is acyclic and key-safe, and the cached and
uncached engines agree on the pair (a, b). -/
theorem c4_cache_transparent_acyclic_witness :
    AcyclicGraph sibGraph ∧ KeySafeGraph sibGraph ∧ keySafeId "a" ∧ keySafeId "b" ∧
      (calculateOffspringInbreedingC .full sibGraph emptyCState "a" "b").1 =
        calculateOffspringInbreeding .full sibGraph "a" "b" := by
  refine ⟨⟨sibRank, ?_⟩, ?_, by decide, by decide,
    c4_cache_transparent_acyclic sibGraph "a" "b" ⟨sibRank, ?_⟩ ?_ (by decide)
      (by decide)⟩
  · unfold Graded
    decide
  · unfold KeySafeGraph
    decide
  · unfold Graded
    decide
  · unfold KeySafeGraph
    decide
